import Mathlib

/-!
Verification of the document-to-tree transformation engine of the parse-tree
repository: the flat-node-list tree builder, the visibility resolver, the
mutation operators (toggle, expand-all, collapse-all, expand-to-node,
expand-to-matches), the search engine, and the JSON validation helpers.

The definitions in the first half of this file are a shallow embedding of the
TypeScript source (the tree engine module and `src/utils/validation.ts`):

* JavaScript strings are modelled as Lean `String`s; the handful of string
  operations the source uses (`toLowerCase`, `includes`, `trim`, `split('.')`,
  `join('.')`) are modelled character-exactly for ASCII data by the `js*`/
  `listIncludes`/`splitDot`/`joinDot` functions below.
* Node ids: the source generates ids `node_0`, `node_1`, ... from a counter
  that is reset at the start of every parse.  The mapping k ↦ "node_" ++ k is
  injective and ids are only ever compared for equality, so ids are modelled
  by the counter value itself (a `Nat`).
* Number values: the source stores the parsed JavaScript number and only ever
  consumes it through `String(value)`.  The model stores that ECMAScript
  string form directly in the JSON value.
* JavaScript `Set`s that are only consulted through `.has` are modelled as
  lists consulted through membership; the search result set, whose iteration
  order is observable, is modelled as an insertion-ordered duplicate-free
  list.
-/

set_option maxHeartbeats 1000000

/-! ## Character and string helpers (models of the JS string primitives) -/

/-- Model of ECMAScript `toLowerCase` on one character (ASCII range; all
strings handled by the claims are ASCII). -/
def lcChar (c : Char) : Char :=
  if 65 ≤ c.toNat ∧ c.toNat ≤ 90 then Char.ofNat (c.toNat + 32) else c

/-- Model of ECMAScript `toUpperCase` on one character (ASCII range). -/
def ucChar (c : Char) : Char :=
  if 97 ≤ c.toNat ∧ c.toNat ≤ 122 then Char.ofNat (c.toNat - 32) else c

def lcList (l : List Char) : List Char := l.map lcChar

/-- Model of `s.toLowerCase()`. -/
def jsLower (s : String) : String := ⟨lcList s.data⟩

/-- Model of `s.toUpperCase()`. -/
def jsUpper (s : String) : String := ⟨s.data.map ucChar⟩

/-- `true` when no character of the string is changed by case mapping. -/
def casedFree (s : String) : Bool := s.data.all fun c => lcChar c == c && ucChar c == c

/-- The whitespace characters stripped by JS `trim` that can occur in the
inputs considered here. -/
def jsWs (c : Char) : Bool :=
  c == ' ' || c == '\t' || c == '\n' || c == '\x0d' || c == '\x0b' || c == '\x0c'

/-- Model of `s.trim()`. -/
def jsTrim (s : String) : String :=
  ⟨((s.data.dropWhile jsWs).reverse.dropWhile jsWs).reverse⟩

/-- Model of JS `hay.includes(needle)` (substring containment). -/
def listIncludes (hay pat : List Char) : Bool :=
  match hay with
  | [] => pat.isEmpty
  | _ :: t => pat.isPrefixOf hay || listIncludes t pat

def strIncludes (hay pat : String) : Bool := listIncludes hay.data pat.data

/-- Model of JS `s.split('.')` on character lists: splits at every dot,
keeping empty segments, and returns `[[]]` for the empty string. -/
def splitDot : List Char → List (List Char)
  | [] => [[]]
  | c :: t =>
    if c = '.' then [] :: splitDot t
    else
      match splitDot t with
      | [] => [[c]]
      | s :: rest => (c :: s) :: rest

/-- Model of JS `parts.join('.')` on character lists. -/
def joinDot : List (List Char) → List Char
  | [] => []
  | [s] => s
  | s :: rest => s ++ '.' :: joinDot rest

def splitDotS (s : String) : List String := (splitDot s.data).map fun l => ⟨l⟩

def joinDotS (parts : List String) : String := ⟨joinDot (parts.map String.data)⟩

/-- Decimal rendering of a natural number (model of JS `String(idx)` for the
array indices produced by the builder); the fuel argument makes the
recursion structural. -/
def natToCharsAux : Nat → Nat → List Char
  | 0, _ => []
  | fuel + 1, n =>
    if n < 10 then [Nat.digitChar n]
    else natToCharsAux fuel (n / 10) ++ [Nat.digitChar (n % 10)]

def natToString (n : Nat) : String := ⟨natToCharsAux (n + 1) n⟩

/-- JS `Set.add` for the insertion-ordered match set of the search engine. -/
def setAdd (s : List Nat) (x : Nat) : List Nat := if s.contains x then s else s ++ [x]

/-! ## Data model (`TreeNode`, `ParseResult` from the tree engine module) -/

inductive JsonValueType where
  | string | number | boolean | null | object | array
deriving Repr, DecidableEq

/-- A scalar JavaScript value as stored in `TreeNode.value`.  A number is
represented by its ECMAScript `String(value)` form, the only way the engine
ever consumes it. -/
inductive JsValue where
  | null : JsValue
  | str (s : String) : JsValue
  | num (r : String) : JsValue
  | bool (b : Bool) : JsValue
deriving Repr, DecidableEq

/-! A parsed JSON document value (the argument the builder receives from
`JSON.parse`).  Object fields are listed in the object's natural key order,
exactly as `Object.keys` enumerates them. -/
mutual
inductive Json where
  | null : Json
  | str (s : String) : Json
  | num (r : String) : Json
  | bool (b : Bool) : Json
  | arr (elems : JsonList) : Json
  | obj (fields : JsonFields) : Json
inductive JsonList where
  | nil : JsonList
  | cons (head : Json) (tail : JsonList) : JsonList
inductive JsonFields where
  | nil : JsonFields
  | cons (key : String) (val : Json) (tail : JsonFields) : JsonFields
end

def JsonList.length : JsonList → Nat
  | .nil => 0
  | .cons _ t => t.length + 1

def JsonFields.length : JsonFields → Nat
  | .nil => 0
  | .cons _ _ t => t.length + 1

def JsonList.ofList : List Json → JsonList
  | [] => .nil
  | v :: t => .cons v (ofList t)

def JsonFields.ofList : List (String × Json) → JsonFields
  | [] => .nil
  | (k, v) :: t => .cons k v (ofList t)

/-! `jsize`: number of nodes the builder emits for a value. -/
mutual
def jsize : Json → Nat
  | .null => 1
  | .str _ => 1
  | .num _ => 1
  | .bool _ => 1
  | .arr elems => 1 + jsizeList elems
  | .obj fields => 1 + jsizeFields fields
def jsizeList : JsonList → Nat
  | .nil => 0
  | .cons h t => jsize h + jsizeList t
def jsizeFields : JsonFields → Nat
  | .nil => 0
  | .cons _ v t => jsize v + jsizeFields t
end

/-! `keysNonEmptyB`: `true` when every object key anywhere in the document is
non-empty. -/
mutual
def keysNonEmptyB : Json → Bool
  | .null => true
  | .str _ => true
  | .num _ => true
  | .bool _ => true
  | .arr elems => keysNonEmptyListB elems
  | .obj fields => keysNonEmptyFieldsB fields
def keysNonEmptyListB : JsonList → Bool
  | .nil => true
  | .cons h t => keysNonEmptyB h && keysNonEmptyListB t
def keysNonEmptyFieldsB : JsonFields → Bool
  | .nil => true
  | .cons k v t => !(k == "") && keysNonEmptyB v && keysNonEmptyFieldsB t
end

/-- `interface TreeNode` of the tree engine module.  The optional TS fields
`key`, `value`, `childCount`, `parent`, `index` are modelled with `""` /
`Option`; `key` is always assigned by the builder (the root receives `''`). -/
structure TreeNode where
  id : Nat
  type : JsonValueType
  key : String
  value : Option JsValue
  depth : Nat
  isExpanded : Bool
  hasChildren : Bool
  childCount : Option Nat
  parent : Option Nat
  path : String
  index : Option Nat
deriving Repr, DecidableEq

structure ParseResult where
  nodes : List TreeNode
  error : Option String
deriving Repr, DecidableEq

/-! ## The tree builder (`buildTree`, `parseJsonToTree`) -/

/-- The `currentPath` expression of `buildTree`:
`path ? (key ? path+'.'+key : path+'['+count+']') : key || 'root'` where
`count` is the number of already-emitted nodes whose `parent` equals this
node's `parentId`. -/
def currentPathOf (nodes : List TreeNode) (parentId : Option Nat) (path key : String) : String :=
  if path ≠ "" then
    if key ≠ "" then path ++ "." ++ key
    else path ++ "[" ++ natToString (nodes.filter fun n => n.parent == parentId).length ++ "]"
  else if key ≠ "" then key else "root"

/-! `buildTree` of the tree engine module: appends the pre-order flattening
of `value` to `nodes`.  The monotonic id counter is threaded explicitly (the
source keeps it in a module-level variable reset per parse). -/
mutual
def buildTree (value : Json) (nodes : List TreeNode) (counter : Nat) (depth : Nat)
    (key : String) (parentId : Option Nat) (path : String) (index : Option Nat) :
    List TreeNode × Nat :=
  let nodeId := counter
  let currentPath := currentPathOf nodes parentId path key
  match value with
  | .null =>
    (nodes ++ [{ id := nodeId, type := .null, key := key, value := some .null,
                 depth := depth, isExpanded := false, hasChildren := false,
                 childCount := none, parent := parentId, path := currentPath,
                 index := index }], counter + 1)
  | .str s =>
    (nodes ++ [{ id := nodeId, type := .string, key := key, value := some (.str s),
                 depth := depth, isExpanded := false, hasChildren := false,
                 childCount := none, parent := parentId, path := currentPath,
                 index := index }], counter + 1)
  | .num r =>
    (nodes ++ [{ id := nodeId, type := .number, key := key, value := some (.num r),
                 depth := depth, isExpanded := false, hasChildren := false,
                 childCount := none, parent := parentId, path := currentPath,
                 index := index }], counter + 1)
  | .bool b =>
    (nodes ++ [{ id := nodeId, type := .boolean, key := key, value := some (.bool b),
                 depth := depth, isExpanded := false, hasChildren := false,
                 childCount := none, parent := parentId, path := currentPath,
                 index := index }], counter + 1)
  | .arr elems =>
    let nodes1 := nodes ++
      [{ id := nodeId, type := .array, key := key, value := none,
         depth := depth, isExpanded := decide (depth < 2),
         hasChildren := decide (0 < elems.length),
         childCount := some elems.length, parent := parentId,
         path := currentPath, index := index }]
    buildTreeArr elems nodes1 (counter + 1) (depth + 1) nodeId currentPath 0
  | .obj fields =>
    let nodes1 := nodes ++
      [{ id := nodeId, type := .object, key := key, value := none,
         depth := depth, isExpanded := decide (depth < 2),
         hasChildren := decide (0 < fields.length),
         childCount := some fields.length, parent := parentId,
         path := currentPath, index := index }]
    buildTreeObj fields nodes1 (counter + 1) (depth + 1) nodeId currentPath

/-- The `value.forEach((item, idx) => buildTree(item, ..., String(idx), nodeId,
currentPath, idx))` loop of the array branch. -/
def buildTreeArr (items : JsonList) (nodes : List TreeNode) (counter : Nat) (depth : Nat)
    (parentId : Nat) (path : String) (idx : Nat) : List TreeNode × Nat :=
  match items with
  | .nil => (nodes, counter)
  | .cons item rest =>
    let r := buildTree item nodes counter depth (natToString idx) (some parentId) path (some idx)
    buildTreeArr rest r.1 r.2 depth parentId path (idx + 1)

/-- The `keys.forEach(k => buildTree(value[k], ..., k, nodeId, currentPath))`
loop of the object branch. -/
def buildTreeObj (fields : JsonFields) (nodes : List TreeNode) (counter : Nat) (depth : Nat)
    (parentId : Nat) (path : String) : List TreeNode × Nat :=
  match fields with
  | .nil => (nodes, counter)
  | .cons k v rest =>
    let r := buildTree v nodes counter depth k (some parentId) path none
    buildTreeObj rest r.1 r.2 depth parentId path
end

/-- The node list produced for one parsed document: the call
`buildTree(parsed, [], 0, '', undefined)` made by `parseJsonToTree` (with the
id counter freshly reset). -/
def buildNodes (v : Json) : List TreeNode := (buildTree v [] 0 0 "" none "" none).1

/-! ## Visibility resolver (`getVisibleNodes`) -/

/-- The `nodeMap` lookup: the map is filled by `forEach(node =>
nodeMap.set(node.id, node))`, so on duplicate ids the last occurrence wins. -/
def nodeMapGet (ns : List TreeNode) (pid : Nat) : Option TreeNode :=
  (ns.filter fun n => n.id == pid).getLast?

/-- The `while (parent)` ancestor walk of `getVisibleNodes`.  The JS loop
terminates exactly when the parent chain is acyclic; on every list whose
parent references point to earlier list entries (the data-model invariant,
established for all built lists below) the chain from a node strictly
descends list positions, so any fuel of at least the list length reproduces
the loop exactly. -/
def ancestorsExpanded (ns : List TreeNode) : Option Nat → Nat → Bool
  | none, _ => true
  | some _, 0 => true
  | some pid, fuel + 1 =>
    match nodeMapGet ns pid with
    | none => true
    | some p => p.isExpanded && ancestorsExpanded ns p.parent fuel

/-- `getVisibleNodes` of the tree engine module. -/
def getVisibleNodes (allNodes : List TreeNode) : List TreeNode :=
  allNodes.filter fun node => ancestorsExpanded allNodes node.parent allNodes.length

/-! ## Mutation operators -/

/-- `toggleNode`. -/
def toggleNode (nodes : List TreeNode) (nodeId : Nat) : List TreeNode :=
  nodes.map fun node =>
    if node.id == nodeId && node.hasChildren then { node with isExpanded := !node.isExpanded }
    else node

/-- `expandAll`: note the source maps over every node with no
`hasChildren` check. -/
def expandAll (nodes : List TreeNode) : List TreeNode :=
  nodes.map fun node => { node with isExpanded := true }

/-- `collapseAll`: likewise unconditional. -/
def collapseAll (nodes : List TreeNode) : List TreeNode :=
  nodes.map fun node => { node with isExpanded := false }

/-! ## Search engine (`searchNodes`) -/

/-- JS `String(value)` for the values a `TreeNode.value` can hold. -/
def jsStringOfValue : Option JsValue → String
  | none => "undefined"
  | some .null => "null"
  | some (.str s) => s
  | some (.num r) => r
  | some (.bool true) => "true"
  | some (.bool false) => "false"

/-- The four per-node checks of `searchNodes`, applied to the running match
set in source order: key, string value, number value (against the raw,
non-lowercased query), path. -/
def searchStep (lq : List Char) (q : String) (acc : List Nat) (n : TreeNode) : List Nat :=
  let m1 := if n.key ≠ "" && listIncludes (lcList n.key.data) lq then setAdd acc n.id else acc
  let m2 := match n.value with
    | some (JsValue.str s) =>
      if n.type == JsonValueType.string && listIncludes (lcList s.data) lq then setAdd m1 n.id
      else m1
    | _ => m1
  let m3 := if n.type == JsonValueType.number &&
      listIncludes (jsStringOfValue n.value).data q.data then setAdd m2 n.id else m2
  if listIncludes (lcList n.path.data) lq then setAdd m3 n.id else m3

/-- `searchNodes` of the tree engine module; the returned JS `Set` is
modelled as its insertion-ordered duplicate-free element list. -/
def searchNodes (nodes : List TreeNode) (query : String) : List Nat :=
  if jsTrim query == "" then []
  else nodes.foldl (searchStep (lcList query.data) query) []

/-- The disjunction of the four checks; `searchStep` adds a node's id exactly
when this holds (proved below). -/
def nodeMatches (n : TreeNode) (q : String) : Bool :=
  let lq := lcList q.data
  (n.key ≠ "" && listIncludes (lcList n.key.data) lq) ||
  (match n.value with
   | some (JsValue.str s) => n.type == JsonValueType.string && listIncludes (lcList s.data) lq
   | _ => false) ||
  (n.type == JsonValueType.number && listIncludes (jsStringOfValue n.value).data q.data) ||
  listIncludes (lcList n.path.data) lq

/-! ## Ancestor-prefix expansion (`expandToNode`, `expandToMatches`) -/

/-- The proper-prefix path loop shared by `expandToNode` and
`expandToMatches`: for `i` in `0 .. parts.length-1`, join the first `i+1`
dot-separated parts and keep the result when it is non-empty and differs
from the full path.  The JS `Set` this feeds is only consulted through
`.has`, so it is modelled as a list consulted through membership. -/
def properPrefixPaths (targetPath : String) : List String :=
  let parts := splitDotS targetPath
  (List.range parts.length).foldl
    (fun acc i =>
      let path := joinDotS (parts.take (i + 1))
      if path ≠ "" && path ≠ targetPath then acc ++ [path] else acc)
    []

/-- `expandToNode` of the tree engine module. -/
def expandToNode (nodes : List TreeNode) (targetNodeId : Nat) : List TreeNode :=
  match nodes.find? fun n => n.id == targetNodeId with
  | none => nodes
  | some targetNode =>
    let parentPaths := properPrefixPaths targetNode.path
    nodes.map fun node =>
      if parentPaths.contains node.path && node.hasChildren then
        { node with isExpanded := true }
      else node

/-- `expandToMatches` of the tree engine module: unions the proper-prefix
path sets of every match before the single map pass. -/
def expandToMatches (nodes : List TreeNode) (matchIds : List Nat) : List TreeNode :=
  let parentPaths := matchIds.foldl
    (fun acc matchId =>
      match nodes.find? fun n => n.id == matchId with
      | some matchNode => acc ++ properPrefixPaths matchNode.path
      | none => acc)
    []
  nodes.map fun node =>
    if parentPaths.contains node.path && node.hasChildren then
      { node with isExpanded := true }
    else node

/-- The parent-path union `expandToMatches` folds up before its map pass,
as a standalone definition (definitionally the `let parentPaths` of
`expandToMatches`). -/
def ppUnion (nodes : List TreeNode) (matchIds : List Nat) : List String :=
  matchIds.foldl
    (fun acc matchId =>
      match nodes.find? fun n => n.id == matchId with
      | some matchNode => acc ++ properPrefixPaths matchNode.path
      | none => acc)
    []

/-! ## JSON text parsing

`parseJsonToTree` delegates raw-text parsing to the host's `JSON.parse`,
which is not part of this repository. -/

/-- Failure kinds of the modelled `JSON.parse`. -/
inductive JErr where
  | unexpectedEnd | unexpectedToken | badNumber | badString | badEscape | trailing | fuelOut
deriving Repr, DecidableEq

/-- Modelled from the spec: the "human-readable message" carried by the
exception `JSON.parse` throws on malformed text.  Engine message texts vary;
the spec only relies on the message being non-empty. -/
def jerrMessage : JErr → String
  | .unexpectedEnd => "Unexpected end of JSON input"
  | .unexpectedToken => "Unexpected token in JSON"
  | .badNumber => "Invalid number in JSON"
  | .badString => "Invalid string in JSON"
  | .badEscape => "Invalid escape sequence in JSON"
  | .trailing => "Unexpected non-whitespace character after JSON data"
  | .fuelOut => "JSON nesting limit exceeded"

/-- JSON token whitespace. -/
def jsonWs (c : Char) : Bool := c == ' ' || c == '\t' || c == '\n' || c == '\x0d'

def skipWsP : List Char → Nat → List Char × Nat
  | [], p => ([], p)
  | c :: t, p => if jsonWs c then skipWsP t (p + 1) else (c :: t, p)

def hexVal (c : Char) : Option Nat :=
  if '0' ≤ c ∧ c ≤ '9' then some (c.toNat - 48)
  else if 'a' ≤ c ∧ c ≤ 'f' then some (c.toNat - 87)
  else if 'A' ≤ c ∧ c ≤ 'F' then some (c.toNat - 55)
  else none

/-- String body scanner (after the opening quote). -/
def pStringBody : List Char → Nat → List Char → Except (JErr × Nat) (String × List Char × Nat)
  | [], p, _ => .error (.unexpectedEnd, p)
  | '"' :: t, p, acc => .ok (⟨acc.reverse⟩, t, p + 1)
  | '\\' :: 'u' :: a :: b :: c :: d :: t, p, acc =>
    match hexVal a, hexVal b, hexVal c, hexVal d with
    | some x, some y, some z, some w =>
      pStringBody t (p + 6) (Char.ofNat (((x * 16 + y) * 16 + z) * 16 + w) :: acc)
    | _, _, _, _ => .error (.badEscape, p)
  | '\\' :: e :: t, p, acc =>
    if e = '"' then pStringBody t (p + 2) ('"' :: acc)
    else if e = '\\' then pStringBody t (p + 2) ('\\' :: acc)
    else if e = '/' then pStringBody t (p + 2) ('/' :: acc)
    else if e = 'b' then pStringBody t (p + 2) ('\x08' :: acc)
    else if e = 'f' then pStringBody t (p + 2) ('\x0c' :: acc)
    else if e = 'n' then pStringBody t (p + 2) ('\n' :: acc)
    else if e = 'r' then pStringBody t (p + 2) ('\x0d' :: acc)
    else if e = 't' then pStringBody t (p + 2) ('\t' :: acc)
    else .error (.badEscape, p)
  | c :: t, p, acc =>
    if c.toNat < 32 then .error (.badString, p) else pStringBody t (p + 1) (c :: acc)

def takeDigits : List Char → Nat → List Char × List Char × Nat
  | [], p => ([], [], p)
  | c :: t, p =>
    if c.isDigit then
      let r := takeDigits t (p + 1)
      (c :: r.1, r.2.1, r.2.2)
    else ([], c :: t, p)

/-- Number lexer following the JSON grammar; the matched literal text is kept
as the stored number representation.  (ECMAScript re-formats some numbers
when converting back to a string — e.g. `String(1e21)` is `"1e+21"` — and no
claim settled here depends on that re-formatting of parsed numbers.) -/
def pNumber (cs : List Char) (pos : Nat) : Except (JErr × Nat) (Json × List Char × Nat) :=
  let neg : Bool × List Char × Nat :=
    match cs with
    | '-' :: t => (true, t, pos + 1)
    | _ => (false, cs, pos)
  match neg.2.1 with
  | c :: t =>
    if c = '0' ∨ ¬ c.isDigit then
      if c = '0' then
        let intPart : List Char × List Char × Nat := (['0'], t, neg.2.2 + 1)
        pNumberFrac neg.1 intPart.1 intPart.2.1 intPart.2.2
      else .error (.badNumber, neg.2.2)
    else
      let r := takeDigits t (neg.2.2 + 1)
      pNumberFrac neg.1 (c :: r.1) r.2.1 r.2.2
  | [] => .error (.badNumber, neg.2.2)
where
  pNumberFrac (isNeg : Bool) (intDigits : List Char) (rest : List Char) (p : Nat) :
      Except (JErr × Nat) (Json × List Char × Nat) :=
    let fr : Option (List Char) × List Char × Nat :=
      match rest with
      | '.' :: t =>
        let r := takeDigits t (p + 1)
        (some r.1, r.2.1, r.2.2)
      | _ => (none, rest, p)
    match fr.1 with
    | some [] => .error (.badNumber, fr.2.2)
    | _ =>
      let ex : Option (List Char) × List Char × Nat :=
        match fr.2.1 with
        | e :: sgn :: t =>
          if e = 'e' ∨ e = 'E' then
            if sgn = '+' ∨ sgn = '-' then
              let r := takeDigits t (fr.2.2 + 2)
              (some (e :: sgn :: r.1), r.2.1, r.2.2)
            else
              let r := takeDigits (sgn :: t) (fr.2.2 + 1)
              (some (e :: r.1), r.2.1, r.2.2)
          else (none, fr.2.1, fr.2.2)
        | [e] =>
          if e = 'e' ∨ e = 'E' then (some [e], [], fr.2.2 + 1) else (none, fr.2.1, fr.2.2)
        | [] => (none, fr.2.1, fr.2.2)
      match ex.1 with
      | some l =>
        if l.length ≤ 1 ∨ (l.length = 2 ∧ (l.getLast? == some '+' ∨ l.getLast? == some '-')) then
          .error (.badNumber, ex.2.2)
        else
          .ok (.num ⟨(if isNeg then ['-'] else []) ++ intDigits ++
                (match fr.1 with | some d => '.' :: d | none => []) ++ l⟩, ex.2.1, ex.2.2)
      | none =>
        .ok (.num ⟨(if isNeg then ['-'] else []) ++ intDigits ++
              (match fr.1 with | some d => '.' :: d | none => [])⟩, fr.2.1, fr.2.2)

/-- Grammar production selector for the single recursive parsing function. -/
inductive PMode where
  | value | arrayBody | arrayRest | member | objectBody | objectRest
deriving Repr, DecidableEq

/-- Result payload of one grammar production. -/
inductive POut where
  | v (j : Json)
  | l (js : JsonList)
  | f (fs : JsonFields)
  | m (k : String) (j : Json)

/-- Modelled from the spec: the host `JSON.parse` recursive-descent grammar
(`parseJsonToTree` delegates raw-text→value parsing to it; the function is a
platform builtin, not code of this repository).  All six grammar productions
share one function recursing structurally on a fuel argument that bounds the
recursion depth and is chosen large enough for every input considered; the
constructor-mismatch fallthroughs below are unreachable. -/
def pRun : Nat → PMode → List Char → Nat → Except (JErr × Nat) (POut × List Char × Nat)
  | 0, _, _, p => .error (.fuelOut, p)
  | fuel + 1, mode, cs, pos =>
    let s := skipWsP cs pos
    match mode with
    | .value =>
      match s.1 with
      | [] => .error (.unexpectedEnd, s.2)
      | 'n' :: 'u' :: 'l' :: 'l' :: t => .ok (.v .null, t, s.2 + 4)
      | 't' :: 'r' :: 'u' :: 'e' :: t => .ok (.v (.bool true), t, s.2 + 4)
      | 'f' :: 'a' :: 'l' :: 's' :: 'e' :: t => .ok (.v (.bool false), t, s.2 + 5)
      | '"' :: t =>
        match pStringBody t (s.2 + 1) [] with
        | .ok r => .ok (.v (.str r.1), r.2.1, r.2.2)
        | .error e => .error e
      | '[' :: t =>
        match pRun fuel .arrayBody t (s.2 + 1) with
        | .ok (.l js, r, p) => .ok (.v (.arr js), r, p)
        | .ok (_, _, p) => .error (.fuelOut, p)
        | .error e => .error e
      | '{' :: t =>
        match pRun fuel .objectBody t (s.2 + 1) with
        | .ok (.f fs, r, p) => .ok (.v (.obj fs), r, p)
        | .ok (_, _, p) => .error (.fuelOut, p)
        | .error e => .error e
      | c :: t =>
        if c = '-' ∨ c.isDigit then
          match pNumber (c :: t) s.2 with
          | .ok r => .ok (.v r.1, r.2.1, r.2.2)
          | .error e => .error e
        else .error (.unexpectedToken, s.2)
    | .arrayBody =>
      match s.1 with
      | ']' :: t => .ok (.l .nil, t, s.2 + 1)
      | _ =>
        match pRun fuel .value s.1 s.2 with
        | .ok (.v j, r, p) =>
          match pRun fuel .arrayRest r p with
          | .ok (.l js, r2, p2) => .ok (.l (.cons j js), r2, p2)
          | .ok (_, _, p2) => .error (.fuelOut, p2)
          | .error e => .error e
        | .ok (_, _, p) => .error (.fuelOut, p)
        | .error e => .error e
    | .arrayRest =>
      match s.1 with
      | ']' :: t => .ok (.l .nil, t, s.2 + 1)
      | ',' :: t =>
        match pRun fuel .value t (s.2 + 1) with
        | .ok (.v j, r, p) =>
          match pRun fuel .arrayRest r p with
          | .ok (.l js, r2, p2) => .ok (.l (.cons j js), r2, p2)
          | .ok (_, _, p2) => .error (.fuelOut, p2)
          | .error e => .error e
        | .ok (_, _, p) => .error (.fuelOut, p)
        | .error e => .error e
      | _ => .error (.unexpectedToken, s.2)
    | .member =>
      match s.1 with
      | '"' :: t =>
        match pStringBody t (s.2 + 1) [] with
        | .error e => .error e
        | .ok k =>
          let s2 := skipWsP k.2.1 k.2.2
          match s2.1 with
          | ':' :: t2 =>
            match pRun fuel .value t2 (s2.2 + 1) with
            | .ok (.v j, r, p) => .ok (.m k.1 j, r, p)
            | .ok (_, _, p) => .error (.fuelOut, p)
            | .error e => .error e
          | _ => .error (.unexpectedToken, s2.2)
      | _ => .error (.unexpectedToken, s.2)
    | .objectBody =>
      match s.1 with
      | '}' :: t => .ok (.f .nil, t, s.2 + 1)
      | _ =>
        match pRun fuel .member s.1 s.2 with
        | .ok (.m k j, r, p) =>
          match pRun fuel .objectRest r p with
          | .ok (.f fs, r2, p2) => .ok (.f (.cons k j fs), r2, p2)
          | .ok (_, _, p2) => .error (.fuelOut, p2)
          | .error e => .error e
        | .ok (_, _, p) => .error (.fuelOut, p)
        | .error e => .error e
    | .objectRest =>
      match s.1 with
      | '}' :: t => .ok (.f .nil, t, s.2 + 1)
      | ',' :: t =>
        match pRun fuel .member t (s.2 + 1) with
        | .ok (.m k j, r, p) =>
          match pRun fuel .objectRest r p with
          | .ok (.f fs, r2, p2) => .ok (.f (.cons k j fs), r2, p2)
          | .ok (_, _, p2) => .error (.fuelOut, p2)
          | .error e => .error e
        | .ok (_, _, p) => .error (.fuelOut, p)
        | .error e => .error e
      | _ => .error (.unexpectedToken, s.2)

/-- Modelled from the spec: `JSON.parse` on the raw text.  On failure the
result carries the error kind and the input offset at which parsing
failed. -/
def jsonParse (s : String) : Except (JErr × Nat) Json :=
  match pRun (4 * s.data.length + 16) .value s.data 0 with
  | .error e => .error e
  | .ok (.v j, rest, p) =>
    let w := skipWsP rest p
    match w.1 with
    | [] => .ok j
    | _ => .error (.trailing, w.2)
  | .ok (_, _, p) => .error (.fuelOut, p)

/-- `parseJsonToTree` of the tree engine module: reset the counter, parse,
build; on a parse exception return no nodes and the exception's message. -/
def parseJsonToTree (jsonString : String) : ParseResult :=
  match jsonParse jsonString with
  | .ok parsed => { nodes := buildNodes parsed, error := none }
  | .error e => { nodes := [], error := some (jerrMessage e.1) }

/-! ## The secondary validator (`validateJson` from `src/utils/validation.ts`) -/

structure ValidationResult where
  line : Nat
  message : String
deriving Repr, DecidableEq

/-- A `ParseError` of the jsonc-parser library: an error code and the input
offset at which it occurred. -/
structure JsoncError where
  error : Nat
  offset : Nat
deriving Repr, DecidableEq

/-- Modelled from the spec: the third-party `jsonc-parser` `parse(input,
errors)` error collection used by `validateJson` (the library is a dependency,
not code of this repository).  The spec requires only that malformed input
yields at least one error entry carrying an input offset; the model reports
the first structural error found by the JSON grammar. -/
def jsoncErrors (s : String) : List JsoncError :=
  match jsonParse s with
  | .ok _ => []
  | .error e => [{ error := jsoncCode e.1, offset := e.2 }]
where
  jsoncCode : JErr → Nat
    | .unexpectedEnd => 12
    | .unexpectedToken => 6
    | .badNumber => 2
    | .badString => 16
    | .badEscape => 15
    | .trailing => 9
    | .fuelOut => 1

/-- JS `input.split('\n')`. -/
def splitNewline (l : List Char) : List (List Char) :=
  match l with
  | [] => [[]]
  | c :: t =>
    if c = '\n' then [] :: splitNewline t
    else
      match splitNewline t with
      | [] => [[c]]
      | s :: rest => (c :: s) :: rest

/-- The offset→line helper of `validateJson`: scan the split lines, charging
each line its length plus one for the consumed newline. -/
def getLineFromOffset (lines : List (List Char)) (offset : Nat) : Nat :=
  go lines 0 1 (lines.length)
where
  go : List (List Char) → Nat → Nat → Nat → Nat
    | [], _, _, total => total
    | l :: rest, charCount, i, total =>
      if charCount + (l.length + 1) > offset then i
      else go rest (charCount + l.length + 1) (i + 1) total

/-- `getErrorMessage` of `validation.ts`: jsonc error code → message. -/
def getErrorMessage (errorCode : Nat) : String :=
  if errorCode = 1 then "Invalid symbol"
  else if errorCode = 2 then "Invalid number format"
  else if errorCode = 3 then "Property name expected"
  else if errorCode = 4 then "Value expected"
  else if errorCode = 5 then "Colon expected"
  else if errorCode = 6 then "Comma expected"
  else if errorCode = 7 then "Closing brace expected"
  else if errorCode = 8 then "Closing bracket expected"
  else if errorCode = 9 then "End of file expected"
  else if errorCode = 10 then "Invalid comment token"
  else if errorCode = 11 then "Unexpected end of comment"
  else if errorCode = 12 then "Unexpected end of string"
  else if errorCode = 13 then "Unexpected end of number"
  else if errorCode = 14 then "Invalid unicode sequence"
  else if errorCode = 15 then "Invalid escape character"
  else if errorCode = 16 then "Invalid character"
  else "Syntax error"

/-- `validateJson` of `validation.ts`: collect jsonc parse errors, map the
first `min(count, 10)` of them to line-numbered messages. -/
def validateJson (input : String) : List ValidationResult :=
  let errors := jsoncErrors input
  if errors.length == 0 then []
  else
    let lines := splitNewline input.data
    let maxErrors := min errors.length 10
    (errors.take maxErrors).map fun e =>
      { line := getLineFromOffset lines e.offset, message := getErrorMessage e.error }

/-! ## Specification-side definitions

The definitions from here on are the vocabulary of the properties: the
reference pre-order skeleton, well-formedness checks, the ancestor relation
walked by the visibility resolver, and frame predicates.  None of them is
consulted by the embedded engine code above. -/

/-- Container kinds (the two kinds for which the builder emits children). -/
def isContainer : JsonValueType → Bool
  | .object => true
  | .array => true
  | _ => false

/-- The (id, depth, parentId) projection of a node list: the data the
pre-order/tree-shape invariants are about. -/
def projSkel (ns : List TreeNode) : List (Nat × Nat × Option Nat) :=
  ns.map fun n => (n.id, n.depth, n.parent)

/-! `specSkeleton`: written from the spec's words (pre-order flattening:
parent immediately before all its descendants, siblings in source order,
depth incremented per nesting level, ids from a monotonic counter).  It is
the reference flattening the builder's output is compared against. -/
mutual
def specSkeleton (v : Json) (c : Nat) (d : Nat) (p : Option Nat) :
    List (Nat × Nat × Option Nat) :=
  match v with
  | .null => [(c, d, p)]
  | .str _ => [(c, d, p)]
  | .num _ => [(c, d, p)]
  | .bool _ => [(c, d, p)]
  | .arr elems => (c, d, p) :: specSkeletonList elems (c + 1) (d + 1) c
  | .obj fields => (c, d, p) :: specSkeletonFields fields (c + 1) (d + 1) c
def specSkeletonList (vs : JsonList) (c d : Nat) (pid : Nat) :
    List (Nat × Nat × Option Nat) :=
  match vs with
  | .nil => []
  | .cons h t => specSkeleton h c d (some pid) ++ specSkeletonList t (c + jsize h) d pid
def specSkeletonFields (fs : JsonFields) (c d : Nat) (pid : Nat) :
    List (Nat × Nat × Option Nat) :=
  match fs with
  | .nil => []
  | .cons _ v t => specSkeleton v c d (some pid) ++ specSkeletonFields t (c + jsize v) d pid
end

/-- Parent-before-child check over an (id, depth, parent) skeleton: walking
left to right, every parent reference must name an id already seen. -/
def peB (seen : List Nat) : List (Nat × Nat × Option Nat) → Bool
  | [] => true
  | (i, _, pp) :: rest =>
    (match pp with
     | none => true
     | some q => seen.contains q) && peB (i :: seen) rest

/-- No-duplicates check on an id list. -/
def nodupB : List Nat → Bool
  | [] => true
  | x :: t => !t.contains x && nodupB t

/-- Well-formedness of a flat node list: every parent reference points to an
earlier entry and ids are pairwise distinct — the spec's standing data-model
invariants, established below for every built list. -/
def wfB (ns : List TreeNode) : Bool :=
  peB [] (projSkel ns) && nodupB (ns.map fun n => n.id)

/-- `a` is an ancestor of the node whose `parent` field is the first
argument, following `parent` references exactly as the visibility resolver
resolves them (through the id map). -/
inductive AncChain (ns : List TreeNode) : Option Nat → TreeNode → Prop where
  | head {pid : Nat} {p : TreeNode} :
      nodeMapGet ns pid = some p → AncChain ns (some pid) p
  | tail {pid : Nat} {p a : TreeNode} :
      nodeMapGet ns pid = some p → AncChain ns p.parent a → AncChain ns (some pid) a

/-- Computable ancestor enumeration (the nodes visited by the resolver's
walk, with the same fuel convention as `ancestorsExpanded`). -/
def ancestorList (ns : List TreeNode) : Option Nat → Nat → List TreeNode
  | none, _ => []
  | some _, 0 => []
  | some pid, fuel + 1 =>
    match nodeMapGet ns pid with
    | none => []
    | some p => p :: ancestorList ns p.parent fuel

/-- Every node of the list is either the root (id `c`, parent `p`) or hangs
off another list entry by a parent reference, with its `path` equal to the
parent's `path` extended by a dot and its non-empty `key`, and with the
parent marked as having children. -/
def DotLinked (c : Nat) (p : Option Nat) (l : List TreeNode) : Prop :=
  ∀ n ∈ l, (n.id = c ∧ n.parent = p) ∨
    ∃ q ∈ l, n.parent = some q.id ∧ q.hasChildren = true ∧ n.key ≠ "" ∧
      n.path = q.path ++ "." ++ n.key

/-- Forest-level variant of `DotLinked`: every node of the list either hangs
directly off the surrounding parent node (id `pid`, path `ppath`) or off
another list entry, in both cases by a dotted path extension with a
non-empty key. -/
def ForestLinked (pid : Nat) (ppath : String) (l : List TreeNode) : Prop :=
  ∀ n ∈ l, (n.parent = some pid ∧ n.key ≠ "" ∧ n.path = ppath ++ "." ++ n.key) ∨
    ∃ q ∈ l, n.parent = some q.id ∧ q.hasChildren = true ∧ n.key ≠ "" ∧
      n.path = q.path ++ "." ++ n.key

/-- Field-wise agreement on everything except the expansion flag. -/
def sameExceptExpanded (a b : TreeNode) : Bool :=
  a.id == b.id && a.type == b.type && a.key == b.key && a.value == b.value &&
  a.depth == b.depth && a.hasChildren == b.hasChildren &&
  a.childCount == b.childCount && a.parent == b.parent && a.path == b.path &&
  a.index == b.index

/-- Two node lists of equal length whose entries agree pairwise on every
field except possibly `isExpanded`. -/
def framePreserved : List TreeNode → List TreeNode → Bool
  | [], [] => true
  | a :: as, b :: bs => sameExceptExpanded a b && framePreserved as bs
  | _, _ => false

/-- The expansion flag the builder actually records: containers are expanded
exactly below depth 2, leaves never. -/
def expandedRuleB (n : TreeNode) : Bool :=
  n.isExpanded == (isContainer n.type && decide (n.depth < 2))

/-! ## Concrete documents used by the scenario claims -/

/-- The document `{"a":{"b":{"c":"value"}}}`. -/
def abcDoc : Json :=
  .obj (.ofList [("a", .obj (.ofList [("b", .obj (.ofList [("c", .str "value")]))]))])

/-- The document `{"items":[{"name":"first"},{"name":"second"}]}`. -/
def itemsDoc : Json :=
  .obj (.ofList [("items", .arr (.ofList
    [.obj (.ofList [("name", .str "first")]), .obj (.ofList [("name", .str "second")])]))])

/-- The raw text of `itemsDoc`. -/
def itemsText : String := "\x7b\"items\":[\x7b\"name\":\"first\"\x7d,\x7b\"name\":\"second\"\x7d]\x7d"

/-- The malformed input `{"a": 1 "b": 2}` (missing comma). -/
def badText : String := "\x7b\"a\": 1 \"b\": 2\x7d"

/-- A document with an empty object key: `{"a":{"b":{"":{"x":"hit"}}}}`.
The builder gives the empty-keyed child the bracket-form path
`root.a.b[0]`, which the dot-prefix computation of `expandToMatches` cannot
see through. -/
def emptyKeyDoc : Json :=
  .obj (.ofList [("a", .obj (.ofList [("b", .obj (.ofList
    [("", .obj (.ofList [("x", .str "hit")]))]))]))])

/-- A document whose first key contains a dot:
`{"a.b":{"x":1},"a":{"b":{"c":1}}}`.  The node for key `"a.b"` (id 1) gets
path `root.a.b`, colliding with the path of the nested `b` node (id 4). -/
def dotDoc : Json :=
  .obj (.ofList [("a.b", .obj (.ofList [("x", .num "1")])),
                 ("a", .obj (.ofList [("b", .obj (.ofList [("c", .num "1")]))]))])

/-- `dotDoc` freshly built and then fully collapsed. -/
def dotNs : List TreeNode := collapseAll (buildNodes dotDoc)

/-- The single-node list built for the document `1e21`: `JSON.parse("1e21")`
yields the number `1e21`, whose ECMAScript string form `String(1e21)` is
`"1e+21"`. -/
def numE21Ns : List TreeNode := buildNodes (Json.num "1e+21")

/-! # Properties

Shared lemmas first, then one theorem per claim, with witnesses and
counterexamples where required. -/

/-! ## Frame lemmas: mutations are pointwise `isExpanded` updates -/

theorem sameExceptExpanded_refl (n : TreeNode) : sameExceptExpanded n n = true := by
  simp [sameExceptExpanded]

theorem sameExceptExpanded_setExpanded (n : TreeNode) (x : Bool) :
    sameExceptExpanded n { n with isExpanded := x } = true := by
  simp [sameExceptExpanded]

theorem framePreserved_refl (ns : List TreeNode) : framePreserved ns ns = true := by
  induction ns with
  | nil => rfl
  | cons a t ih => simp [framePreserved, sameExceptExpanded_refl, ih]

theorem framePreserved_map (ns : List TreeNode) (g : TreeNode → TreeNode)
    (h : ∀ n, sameExceptExpanded n (g n) = true) :
    framePreserved ns (ns.map g) = true := by
  induction ns with
  | nil => rfl
  | cons a t ih => simp [framePreserved, h, ih]

theorem sameExceptExpanded_condSet (n : TreeNode) (c : Bool) (x : Bool) :
    sameExceptExpanded n (if c then { n with isExpanded := x } else n) = true := by
  split
  · exact sameExceptExpanded_setExpanded n x
  · exact sameExceptExpanded_refl n

/-- C10: every mutation operator (toggleNode, expandAll, collapseAll,
expandToNode, expandToMatches) returns a list of the same length and node
order in which each node agrees with the corresponding input node on every
field except possibly `isExpanded`; no node is added or removed. -/
theorem c10_mutation_frame (ns : List TreeNode) (tid : Nat) (mids : List Nat) :
    framePreserved ns (toggleNode ns tid) = true ∧
    framePreserved ns (expandAll ns) = true ∧
    framePreserved ns (collapseAll ns) = true ∧
    framePreserved ns (expandToNode ns tid) = true ∧
    framePreserved ns (expandToMatches ns mids) = true := by
  refine ⟨?_, ?_, ?_, ?_, ?_⟩
  · exact framePreserved_map ns _ fun n => sameExceptExpanded_condSet n _ _
  · exact framePreserved_map ns _ fun n => sameExceptExpanded_setExpanded n _
  · exact framePreserved_map ns _ fun n => sameExceptExpanded_setExpanded n _
  · rw [expandToNode]
    cases ns.find? fun n => n.id == tid with
    | none => exact framePreserved_refl ns
    | some t => exact framePreserved_map ns _ fun n => sameExceptExpanded_condSet n _ _
  · exact framePreserved_map ns _ fun n => sameExceptExpanded_condSet n _ _

/-! ## C6: expandAll / collapseAll / toggleNode and childless nodes -/

/-- C6 counterexample: on the freshly built single-leaf list, `expandAll`
sets `isExpanded = true` on a node with `hasChildren = false`, so childless
nodes are not left untouched and a mutation does flip a leaf's flag. -/
theorem c6_expand_all_counterexample :
    (numE21Ns.map fun n => (n.isExpanded, n.hasChildren)) = [(false, false)] ∧
    ((expandAll numE21Ns).map fun n => (n.isExpanded, n.hasChildren)) = [(true, false)] := by
  decide

/-- C6 (amended): `expandAll` sets `isExpanded = true` on every node and
`collapseAll` sets it to `false` on every node, childless nodes included;
only `toggleNode` spares childless nodes (toggling a leaf is a no-op). -/
theorem c6_mutation_amended (ns : List TreeNode) (i : Nat) (tid : Nat) :
    ((expandAll ns)[i]? = (ns[i]?).map fun n => { n with isExpanded := true }) ∧
    ((collapseAll ns)[i]? = (ns[i]?).map fun n => { n with isExpanded := false }) ∧
    (∀ n, ns[i]? = some n → n.hasChildren = false → (toggleNode ns tid)[i]? = some n) := by
  refine ⟨?_, ?_, ?_⟩
  · simp [expandAll]
  · simp [collapseAll]
  · intro n hn hc
    simp [toggleNode, hn, hc]

/-- Witness for the amended C6 at the concrete single-leaf list. -/
theorem c6_mutation_amended_witness :
    (toggleNode numE21Ns 0)[0]? = some
      { id := 0, type := JsonValueType.number, key := "", value := some (JsValue.num "1e+21"),
        depth := 0, isExpanded := false, hasChildren := false, childCount := none,
        parent := none, path := "root", index := none } :=
  (c6_mutation_amended numE21Ns 0 0).2.2 _ (by decide) (by decide)

/-! ## C3: the expansion flag recorded by a fresh build -/

/-- C3 counterexample: building the document `{}` yields a root container
with `hasChildren = false` at depth 0 whose `isExpanded` is `true`, so
`expanded == (hasChildren && depth < 2)` fails on empty containers. -/
theorem c3_autoexpand_counterexample :
    ((buildNodes (Json.obj .nil)).map fun n => (n.isExpanded, n.hasChildren, n.depth)) =
      [(true, false, 0)] ∧
    ((buildNodes (Json.obj .nil)).all fun n =>
      n.isExpanded == (n.hasChildren && decide (n.depth < 2))) = false := by
  decide

mutual
theorem expandedRule_buildTree (v : Json) (ns : List TreeNode) (c d : Nat) (k : String)
    (p : Option Nat) (path : String) (idx : Option Nat)
    (h : ∀ n ∈ ns, expandedRuleB n = true) :
    ∀ n ∈ (buildTree v ns c d k p path idx).1, expandedRuleB n = true := by
  cases v with
  | null =>
    intro n hn
    simp only [buildTree] at hn
    rcases List.mem_append.1 hn with h1 | h1
    · exact h n h1
    · rw [List.mem_singleton.1 h1]; simp [expandedRuleB, isContainer]
  | str s =>
    intro n hn
    simp only [buildTree] at hn
    rcases List.mem_append.1 hn with h1 | h1
    · exact h n h1
    · rw [List.mem_singleton.1 h1]; simp [expandedRuleB, isContainer]
  | num r =>
    intro n hn
    simp only [buildTree] at hn
    rcases List.mem_append.1 hn with h1 | h1
    · exact h n h1
    · rw [List.mem_singleton.1 h1]; simp [expandedRuleB, isContainer]
  | bool b =>
    intro n hn
    simp only [buildTree] at hn
    rcases List.mem_append.1 hn with h1 | h1
    · exact h n h1
    · rw [List.mem_singleton.1 h1]; simp [expandedRuleB, isContainer]
  | arr elems =>
    intro n hn
    simp only [buildTree] at hn
    refine expandedRule_buildTreeArr elems _ _ _ _ _ _ ?_ n hn
    intro m hm
    rcases List.mem_append.1 hm with h1 | h1
    · exact h m h1
    · rw [List.mem_singleton.1 h1]; simp [expandedRuleB, isContainer]
  | obj fields =>
    intro n hn
    simp only [buildTree] at hn
    refine expandedRule_buildTreeObj fields _ _ _ _ _ ?_ n hn
    intro m hm
    rcases List.mem_append.1 hm with h1 | h1
    · exact h m h1
    · rw [List.mem_singleton.1 h1]; simp [expandedRuleB, isContainer]

theorem expandedRule_buildTreeArr (items : JsonList) (ns : List TreeNode) (c d : Nat)
    (pid : Nat) (path : String) (idx : Nat)
    (h : ∀ n ∈ ns, expandedRuleB n = true) :
    ∀ n ∈ (buildTreeArr items ns c d pid path idx).1, expandedRuleB n = true := by
  cases items with
  | nil =>
    intro n hn
    simp only [buildTreeArr] at hn
    exact h n hn
  | cons item rest =>
    intro n hn
    simp only [buildTreeArr] at hn
    refine expandedRule_buildTreeArr rest _ _ _ _ _ _ ?_ n hn
    exact expandedRule_buildTree item ns c d (natToString idx) (some pid) path (some idx) h

theorem expandedRule_buildTreeObj (fields : JsonFields) (ns : List TreeNode) (c d : Nat)
    (pid : Nat) (path : String)
    (h : ∀ n ∈ ns, expandedRuleB n = true) :
    ∀ n ∈ (buildTreeObj fields ns c d pid path).1, expandedRuleB n = true := by
  cases fields with
  | nil =>
    intro n hn
    simp only [buildTreeObj] at hn
    exact h n hn
  | cons k v rest =>
    intro n hn
    simp only [buildTreeObj] at hn
    refine expandedRule_buildTreeObj rest _ _ _ _ _ ?_ n hn
    exact expandedRule_buildTree v ns c d k (some pid) path none h
end

/-- C3 (amended): immediately after a fresh build, every node satisfies
`expanded == (isContainer && depth < 2)`: object/array nodes — with or
without children — start expanded exactly below depth 2, and every leaf
starts collapsed.  (The claim's `hasChildren && depth < 2` fails only on
childless containers at depth 0 or 1, which the code also expands.) -/
theorem c3_autoexpand_amended (v : Json) (i : Nat) :
    ((buildNodes v)[i]?).all expandedRuleB = true := by
  cases hg : (buildNodes v)[i]? with
  | none => rfl
  | some n =>
    have hmem : n ∈ buildNodes v := by
      have := List.getElem?_eq_some.1 hg
      rcases this with ⟨hlt, hget⟩
      exact hget ▸ List.getElem_mem hlt
    have := expandedRule_buildTree v [] 0 0 "" none "" none (by intro m hm; cases hm) n hmem
    simpa using this

/-! ## C7: case behaviour of the search engine -/

theorem toNat_charOfNat (n : Nat) (h : n < 55296) : (Char.ofNat n).toNat = n := by
  have hv : n.isValidChar := by unfold Nat.isValidChar; left; exact h
  simp [Char.ofNat, hv]
  rfl

theorem lcChar_ucChar (c : Char) : lcChar (ucChar c) = lcChar c := by
  unfold ucChar
  split
  · rename_i h
    have hv : (Char.ofNat (c.toNat - 32)).toNat = c.toNat - 32 := toNat_charOfNat _ (by omega)
    unfold lcChar
    rw [hv]
    rw [if_pos (by omega : 65 ≤ c.toNat - 32 ∧ c.toNat - 32 ≤ 90)]
    rw [if_neg (by omega : ¬(65 ≤ c.toNat ∧ c.toNat ≤ 90))]
    have he : c.toNat - 32 + 32 = c.toNat := by omega
    rw [he, Char.ofNat_toNat]
  · rfl

theorem lcChar_lcChar (c : Char) : lcChar (lcChar c) = lcChar c := by
  by_cases h : 65 ≤ c.toNat ∧ c.toNat ≤ 90
  · have h1 : lcChar c = Char.ofNat (c.toNat + 32) := by rw [lcChar, if_pos h]
    have hv : (Char.ofNat (c.toNat + 32)).toNat = c.toNat + 32 := toNat_charOfNat _ (by omega)
    rw [h1, lcChar, hv, if_neg (by omega : ¬(65 ≤ c.toNat + 32 ∧ c.toNat + 32 ≤ 90))]
  · have h1 : lcChar c = c := by rw [lcChar, if_neg h]
    rw [h1, h1]

theorem lcList_map_ucChar (l : List Char) : lcList (l.map ucChar) = lcList l := by
  induction l with
  | nil => rfl
  | cons c t ih =>
    simp only [List.map_cons, lcList] at ih ⊢
    rw [lcChar_ucChar, ih]

theorem lcList_lcList (l : List Char) : lcList (lcList l) = lcList l := by
  induction l with
  | nil => rfl
  | cons c t ih =>
    simp only [List.map_cons, lcList] at ih ⊢
    rw [lcChar_lcChar, ih]

/-- `nodeMatches` depends on the query only through its lowercasing, except
on number-typed nodes. -/
theorem nodeMatches_congr (n : TreeNode) (q1 q2 : String)
    (hq : lcList q1.data = lcList q2.data) (hnum : n.type ≠ JsonValueType.number) :
    nodeMatches n q1 = nodeMatches n q2 := by
  have hbeq : (n.type == JsonValueType.number) = false := by
    simp only [beq_eq_false_iff_ne, ne_eq]
    exact hnum
  cases hv : n.value with
  | none => simp [nodeMatches, hq, hbeq, hv]
  | some jv => cases jv <;> simp [nodeMatches, hq, hbeq, hv]

theorem map_fixed (f : Char → Char) (l : List Char) (h : ∀ c ∈ l, f c = c) :
    l.map f = l := by
  induction l with
  | nil => rfl
  | cons c t ih =>
    simp only [List.map_cons]
    rw [h c (List.mem_cons_self c t), ih fun c hc => h c (List.mem_cons_of_mem _ hc)]

/-- C7 counterexample: on the list built for the document `1e21` (string
form `"1e+21"`), the queries `"1E+21"`, its uppercasing and its lowercasing
yield different match sets, because number values are compared against the
raw query case-sensitively. -/
theorem c7_case_insensitivity_counterexample :
    searchNodes numE21Ns "1E+21" = [] ∧
    searchNodes numE21Ns (jsUpper "1E+21") = [] ∧
    searchNodes numE21Ns (jsLower "1E+21") = [0] ∧
    jsTrim "1E+21" ≠ "" := by
  decide

/-- C7 (amended): matching against keys, string values and paths is
case-insensitive — on every non-number node the three queries `q`,
`q.toUpperCase()`, `q.toLowerCase()` match identically — but number values
are compared with the raw query case-sensitively, so the three match sets
are only guaranteed to coincide for queries without cased characters. -/
theorem c7_case_insensitivity_amended (ns : List TreeNode) (q : String) :
    (∀ n ∈ ns, n.type ≠ JsonValueType.number →
      nodeMatches n (jsUpper q) = nodeMatches n (jsLower q) ∧
      nodeMatches n q = nodeMatches n (jsLower q)) ∧
    (casedFree q = true →
      searchNodes ns q = searchNodes ns (jsUpper q) ∧
      searchNodes ns q = searchNodes ns (jsLower q)) := by
  constructor
  · intro n _ hnum
    have h1 : lcList (jsUpper q).data = lcList q.data := lcList_map_ucChar q.data
    have h2 : lcList (jsLower q).data = lcList q.data := lcList_lcList q.data
    exact ⟨nodeMatches_congr n (jsUpper q) (jsLower q) (h1.trans h2.symm) hnum,
           nodeMatches_congr n q (jsLower q) h2.symm hnum⟩
  · intro hc
    have hfix : ∀ c ∈ q.data, (lcChar c = c ∧ ucChar c = c) := by
      intro c hcm
      have := List.all_eq_true.1 hc c hcm
      simp only [Bool.and_eq_true, beq_iff_eq] at this
      exact this
    have hu : jsUpper q = q := by
      cases q with
      | mk d =>
        show String.mk (d.map ucChar) = String.mk d
        rw [map_fixed ucChar d fun c hcm => (hfix c hcm).2]
    have hl : jsLower q = q := by
      cases q with
      | mk d =>
        show String.mk (lcList d) = String.mk d
        rw [show lcList d = d.map lcChar from rfl,
            map_fixed lcChar d fun c hcm => (hfix c hcm).1]
    rw [hu, hl]
    exact ⟨rfl, rfl⟩

/-- Witness for the amended C7: a non-number node matched identically under
all three query casings, and a cased-free query with equal match sets. -/
theorem c7_case_insensitivity_witness :
    (nodeMatches
      { id := 0, type := JsonValueType.object, key := "", value := none, depth := 0,
        isExpanded := true, hasChildren := true, childCount := some 1, parent := none,
        path := "root", index := none } (jsUpper "Root") =
     nodeMatches
      { id := 0, type := JsonValueType.object, key := "", value := none, depth := 0,
        isExpanded := true, hasChildren := true, childCount := some 1, parent := none,
        path := "root", index := none } (jsLower "Root")) ∧
    searchNodes (buildNodes abcDoc) "123" = searchNodes (buildNodes abcDoc) (jsUpper "123") := by
  constructor
  · exact ((c7_case_insensitivity_amended
      [{ id := 0, type := JsonValueType.object, key := "", value := none, depth := 0,
         isExpanded := true, hasChildren := true, childCount := some 1, parent := none,
         path := "root", index := none }] "Root").1 _ (by decide) (by decide)).1
  · exact ((c7_case_insensitivity_amended (buildNodes abcDoc) "123").2 (by decide)).1

/-! ## C8: the concrete search scenario -/

/-- C8: for `{"items":[{"name":"first"},{"name":"second"}]}`, searching the
built list for `"first"` matches exactly the string leaf with value
`"first"` (id 3), and its path `root.items.0.name` differs from the second
name leaf's path `root.items.1.name` by the embedded array index. -/
theorem c8_first_search_scenario :
    jsonParse itemsText = Except.ok itemsDoc ∧
    searchNodes (buildNodes itemsDoc) "first" = [3] ∧
    (((buildNodes itemsDoc)[3]?).all fun n =>
      n.type == JsonValueType.string && n.value == some (JsValue.str "first") &&
      n.path == "root.items.0.name") = true ∧
    (((buildNodes itemsDoc)[5]?).all fun n =>
      n.type == JsonValueType.string && n.value == some (JsValue.str "second") &&
      n.path == "root.items.1.name") = true ∧
    "root.items.0.name" ≠ "root.items.1.name" := by
  refine ⟨by rfl, by decide, by decide, by decide, by decide⟩

/-! ## C9: failure behaviour of the build path and the secondary validator -/

/-- C9: a failing parse is the only failure path — it yields an empty node
list plus a non-empty message, while a successful parse always builds (the
builder itself is total and sets no error); on the malformed single-line
input `{"a": 1 "b": 2}` the secondary validator reports at least one entry
with line 1; and the validator's output is always capped at 10 entries. -/
theorem c9_error_handling :
    (∀ s e, jsonParse s = Except.error e →
      parseJsonToTree s = { nodes := [], error := some (jerrMessage e.1) } ∧
      jerrMessage e.1 ≠ "") ∧
    (∀ s v, jsonParse s = Except.ok v →
      parseJsonToTree s = { nodes := buildNodes v, error := none }) ∧
    ((parseJsonToTree badText).nodes = [] ∧
      (parseJsonToTree badText).error = some "Unexpected token in JSON" ∧
      "Unexpected token in JSON" ≠ "" ∧
      (∃ r ∈ validateJson badText, r.line = 1)) ∧
    (∀ s, (validateJson s).length ≤ 10) := by
  refine ⟨?_, ?_, ?_, ?_⟩
  · intro s e h
    constructor
    · simp [parseJsonToTree, h]
    · rcases e with ⟨k, off⟩
      dsimp only
      cases k <;> decide
  · intro s v h
    simp [parseJsonToTree, h]
  · refine ⟨by decide, by decide, by decide, by decide⟩
  · intro s
    simp only [validateJson]
    split
    · simp
    · simp only [List.length_map, List.length_take]
      omega

/-- Witness for C9 at concrete inputs: the malformed text takes the failure
path with a non-empty message, and a well-formed text takes the success
path. -/
theorem c9_error_handling_witness :
    (parseJsonToTree badText =
      { nodes := [], error := some (jerrMessage JErr.unexpectedToken) } ∧
      jerrMessage JErr.unexpectedToken ≠ "") ∧
    parseJsonToTree "1" = { nodes := buildNodes (Json.num "1"), error := none } :=
  ⟨c9_error_handling.1 badText (JErr.unexpectedToken, 8) (by rfl),
   c9_error_handling.2.1 "1" (Json.num "1") (by rfl)⟩

/-! ## Dot-path algebra: `split('.')` / `join('.')` -/

theorem splitDot_ne_nil (l : List Char) : splitDot l ≠ [] := by
  cases l with
  | nil => simp [splitDot]
  | cons c t =>
    simp only [splitDot]
    split
    · simp
    · cases h : splitDot t with
      | nil => simp
      | cons s rest => simp

theorem splitDot_append (a b : List Char) :
    splitDot (a ++ '.' :: b) = splitDot a ++ splitDot b := by
  induction a with
  | nil => simp [splitDot]
  | cons c t ih =>
    by_cases hc : c = '.'
    · subst hc
      show splitDot ('.' :: (t ++ '.' :: b)) = splitDot ('.' :: t) ++ splitDot b
      simp [splitDot, ih]
    · cases hs : splitDot t with
      | nil => exact absurd hs (splitDot_ne_nil t)
      | cons s rest =>
        show splitDot (c :: (t ++ '.' :: b)) = splitDot (c :: t) ++ splitDot b
        simp [splitDot, hc, ih, hs]

theorem joinDot_splitDot (l : List Char) : joinDot (splitDot l) = l := by
  induction l with
  | nil => rfl
  | cons c t ih =>
    by_cases hc : c = '.'
    · subst hc
      cases hs : splitDot t with
      | nil => exact absurd hs (splitDot_ne_nil t)
      | cons s rest =>
        rw [show splitDot ('.' :: t) = [] :: splitDot t by simp [splitDot], hs]
        show '.' :: joinDot (s :: rest) = '.' :: t
        rw [← hs, ih]
    · cases hs : splitDot t with
      | nil => exact absurd hs (splitDot_ne_nil t)
      | cons s rest =>
        rw [show splitDot (c :: t) = match splitDot t with
              | [] => [[c]]
              | s :: rest => (c :: s) :: rest from by simp [splitDot, hc], hs]
        have ht := ih
        rw [hs] at ht
        cases rest with
        | nil =>
          show c :: s = c :: t
          simp only [joinDot] at ht
          rw [ht]
        | cons s2 rest2 =>
          show (c :: s) ++ '.' :: joinDot (s2 :: rest2) = c :: t
          simp only [joinDot] at ht
          simp [← ht]

theorem joinDot_append (A B : List (List Char)) (hA : A ≠ []) (hB : B ≠ []) :
    joinDot (A ++ B) = joinDot A ++ '.' :: joinDot B := by
  induction A with
  | nil => exact absurd rfl hA
  | cons s rest ih =>
    cases rest with
    | nil =>
      cases B with
      | nil => exact absurd rfl hB
      | cons b bs => simp [joinDot]
    | cons s2 rest2 =>
      have h2 := ih (by simp)
      cases B with
      | nil => exact absurd rfl hB
      | cons b bs =>
        simp only [List.cons_append] at h2 ⊢
        show joinDot (s :: s2 :: (rest2 ++ b :: bs)) =
          joinDot (s :: s2 :: rest2) ++ '.' :: joinDot (b :: bs)
        simp only [joinDot]
        rw [h2]
        simp

theorem map_data_mk (L : List (List Char)) :
    (L.map fun l => (⟨l⟩ : String)).map String.data = L := by
  induction L with
  | nil => rfl
  | cons s rest ih => simp only [List.map_cons, ih]

theorem strData_inj {a b : String} (h : a.data = b.data) : a = b := by
  cases a with
  | mk d1 =>
    cases b with
    | mk d2 => exact congrArg String.mk h

theorem foldl_condAppend (f : Nat → String) (cond : Nat → Bool) (l : List Nat) :
    ∀ acc : List String,
      l.foldl (fun a i => if cond i then a ++ [f i] else a) acc =
        acc ++ (l.filter cond).map f := by
  induction l with
  | nil => intro acc; simp
  | cons j rest ih =>
    intro acc
    simp only [List.foldl_cons, List.filter_cons]
    by_cases hj : cond j
    · rw [if_pos hj, ih, if_pos hj]
      simp
    · rw [if_neg hj, ih, if_neg hj]

/-- The proper-prefix path set computed by the engine contains exactly the
non-empty strings that the target path properly extends at a dot. -/
theorem mem_properPrefixPaths (t q : String) :
    q ∈ properPrefixPaths t ↔ q ≠ "" ∧ ∃ rest, t = q ++ "." ++ rest := by
  have hparts : (splitDotS t).map String.data = splitDot t.data := map_data_mk _
  constructor
  · intro hmem
    rw [properPrefixPaths, foldl_condAppend] at hmem
    simp only [List.nil_append, List.mem_map, List.mem_filter, List.mem_range] at hmem
    rcases hmem with ⟨i, ⟨hi, hcond⟩, hq⟩
    simp only [Bool.and_eq_true, decide_eq_true_eq] at hcond
    rcases hcond with ⟨hne, hnt⟩
    subst hq
    refine ⟨hne, ?_⟩
    have hqdata : (joinDotS ((splitDotS t).take (i + 1))).data =
        joinDot ((splitDot t.data).take (i + 1)) := by
      show joinDot (((splitDotS t).take (i + 1)).map String.data) = _
      rw [List.map_take, hparts]
    have hlen : (splitDotS t).length = (splitDot t.data).length := by
      rw [← hparts, List.length_map]
    rcases Nat.lt_or_ge (i + 1) (splitDot t.data).length with hlt | hge
    · have hdrop : (splitDot t.data).drop (i + 1) ≠ [] := by
        intro hx
        have := List.length_drop (i + 1) (splitDot t.data)
        rw [hx] at this
        simp only [List.length_nil] at this
        omega
      have htake : (splitDot t.data).take (i + 1) ≠ [] := by
        intro hx
        have := List.length_take (i + 1) (splitDot t.data)
        rw [hx] at this
        simp only [List.length_nil] at this
        omega
      refine ⟨⟨joinDot ((splitDot t.data).drop (i + 1))⟩, ?_⟩
      apply strData_inj
      rw [String.data_append, String.data_append, hqdata]
      simp only [List.append_assoc]
      show t.data = joinDot ((splitDot t.data).take (i + 1)) ++ '.' ::
        joinDot ((splitDot t.data).drop (i + 1))
      rw [← joinDot_append _ _ htake hdrop, List.take_append_drop, joinDot_splitDot]
    · exfalso
      apply hnt
      apply strData_inj
      rw [hqdata, List.take_of_length_le hge, joinDot_splitDot]
  · rintro ⟨hne, rest, hrest⟩
    have htdata : t.data = q.data ++ '.' :: rest.data := by
      have := congrArg String.data hrest
      rwa [String.data_append, String.data_append, List.append_assoc] at this
    have hsplit : splitDot t.data = splitDot q.data ++ splitDot rest.data := by
      rw [htdata, splitDot_append]
    have hqlen : 1 ≤ (splitDot q.data).length := by
      cases hx : splitDot q.data with
      | nil => exact absurd hx (splitDot_ne_nil _)
      | cons s r => simp
    have hrlen : 1 ≤ (splitDot rest.data).length := by
      cases hx : splitDot rest.data with
      | nil => exact absurd hx (splitDot_ne_nil _)
      | cons s r => simp
    have hm : (splitDot q.data).length - 1 + 1 = (splitDot q.data).length := by omega
    have hlen : (splitDotS t).length = (splitDot t.data).length := by
      rw [← hparts, List.length_map]
    have hqeq : joinDotS ((splitDotS t).take ((splitDot q.data).length - 1 + 1)) = q := by
      apply strData_inj
      show joinDot (((splitDotS t).take _).map String.data) = q.data
      rw [List.map_take, hparts, hm, hsplit, List.take_left, joinDot_splitDot]
    rw [properPrefixPaths, foldl_condAppend]
    simp only [List.nil_append, List.mem_map, List.mem_filter, List.mem_range]
    refine ⟨(splitDot q.data).length - 1, ⟨?_, ?_⟩, hqeq⟩
    · have := congrArg List.length hsplit
      simp only [List.length_append] at this
      omega
    · rw [hqeq]
      simp only [Bool.and_eq_true, decide_eq_true_eq]
      refine ⟨hne, ?_⟩
      intro hqt
      have := congrArg (fun s => s.data.length) hqt
      simp only at this
      rw [htdata] at this
      simp only [List.length_append, List.length_cons] at this
      omega

/-! ## C5: expandToNode -/

theorem ancChain_none (ns : List TreeNode) (a : TreeNode) : ¬ AncChain ns none a := by
  intro h
  cases h

theorem ancChain_some_elim (ns : List TreeNode) (pid : Nat) (a p : TreeNode)
    (hp : nodeMapGet ns pid = some p) :
    AncChain ns (some pid) a → a = p ∨ AncChain ns p.parent a := by
  intro h
  cases h with
  | head hm =>
    left
    rw [hp] at hm
    exact (Option.some.inj hm).symm
  | tail hm hc =>
    right
    rw [hp] at hm
    have he := Option.some.inj hm
    rw [← he] at hc
    exact hc

/-- C5 counterexample: in `dotNs` (the collapsed build of `dotDoc`) node 5
(`root.a.b.c`) has ancestor chain 4 → 3 → 0, so node 1 (the sibling keyed
`"a.b"`, whose path `root.a.b` collides with node 4's) is not an ancestor
of node 5 — yet `expandToNode` targeting node 5 flips node 1's flag. -/
theorem c5_expand_to_node_counterexample :
    ((dotNs.map fun n => (n.id, n.isExpanded))[1]? = some (1, false)) ∧
    (((expandToNode dotNs 5).map fun n => (n.id, n.isExpanded))[1]? = some (1, true)) ∧
    ((dotNs.map fun n => (n.id, n.parent)) =
      [(0, none), (1, some 0), (2, some 1), (3, some 0), (4, some 3), (5, some 4)]) ∧
    (∀ a, AncChain dotNs (some 4) a → a.id ≠ 1) := by
  refine ⟨by decide, by decide, by decide, ?_⟩
  intro a h
  rcases ancChain_some_elim dotNs 4 a
      { id := 4, type := JsonValueType.object, key := "b", value := none, depth := 2,
        isExpanded := false, hasChildren := true, childCount := some 1, parent := some 3,
        path := "root.a.b", index := none } (by decide) h with heq | h3
  · rw [heq]; decide
  · rcases ancChain_some_elim dotNs 3 a
        { id := 3, type := JsonValueType.object, key := "a", value := none, depth := 1,
          isExpanded := false, hasChildren := true, childCount := some 1, parent := some 0,
          path := "root.a", index := none } (by decide) h3 with heq | h0
    · rw [heq]; decide
    · rcases ancChain_some_elim dotNs 0 a
          { id := 0, type := JsonValueType.object, key := "", value := none, depth := 0,
            isExpanded := false, hasChildren := true, childCount := some 2, parent := none,
            path := "root", index := none } (by decide) h0 with heq | hnone
      · rw [heq]; decide
      · exact absurd hnone (ancChain_none dotNs a)

/-- C5 (amended): when the target id is found, `expandToNode` maps each node
to itself unless the node's path lies in the proper dot-prefix set of the
target's path and the node has children, in which case only `isExpanded` is
set; that prefix set holds exactly the non-empty strings that the target
path properly extends at a dot; every node sharing the target's own path —
in particular the target — is left unchanged.  (A non-ancestor whose path
collides with a proper dot-prefix of the target's path, possible when keys
contain dots, is expanded too, so "only ancestors are affected" holds only
path-wise.)  Concretely, targeting the `c` leaf of the collapsed build of
`{"a":{"b":{"c":"value"}}}` expands `a` (id 1) and `b` (id 2) — and the
root — while the `c` leaf (id 3) itself stays collapsed. -/
theorem c5_expand_to_node_amended (ns : List TreeNode) (tid : Nat) (t : TreeNode)
    (hfind : ns.find? (fun n => n.id == tid) = some t) :
    (∀ i : Nat, (expandToNode ns tid)[i]? = (ns[i]?).map fun n =>
        if (properPrefixPaths t.path).contains n.path && n.hasChildren then
          { n with isExpanded := true } else n) ∧
    (∀ p, p ∈ properPrefixPaths t.path ↔ p ≠ "" ∧ ∃ rest, t.path = p ++ "." ++ rest) ∧
    (∀ (i : Nat) (n : TreeNode), ns[i]? = some n → n.path = t.path →
      (expandToNode ns tid)[i]? = some n) ∧
    (((expandToNode (collapseAll (buildNodes abcDoc)) 3).map fun n => (n.id, n.isExpanded)) =
      [(0, true), (1, true), (2, true), (3, false)]) ∧
    ((expandToNode (collapseAll (buildNodes abcDoc)) 3)[3]? =
      (collapseAll (buildNodes abcDoc))[3]?) := by
  refine ⟨?_, fun p => mem_properPrefixPaths t.path p, ?_, by decide, by decide⟩
  · intro i
    simp [expandToNode, hfind]
  · intro i n hn hpath
    have hmem : t.path ∉ properPrefixPaths t.path := by
      intro hcon
      rcases (mem_properPrefixPaths t.path t.path).1 hcon with ⟨_, rest, hrest⟩
      have hd := congrArg String.data hrest
      rw [String.data_append, String.data_append] at hd
      have hl := congrArg List.length hd
      simp only [List.length_append] at hl
      have hone : ("." : String).data.length = 1 := rfl
      rw [hone] at hl
      omega
    have hmem2 : n.path ∉ properPrefixPaths t.path := by
      rw [hpath]
      exact hmem
    simp [expandToNode, hfind, hn, hmem2]

/-- Witness for the amended C5 at the concrete `{"a":{"b":{"c":"value"}}}`
scenario after `collapseAll`. -/
theorem c5_expand_to_node_witness :
    ((expandToNode (collapseAll (buildNodes abcDoc)) 3).map fun n => (n.id, n.isExpanded)) =
      [(0, true), (1, true), (2, true), (3, false)] :=
  (c5_expand_to_node_amended (collapseAll (buildNodes abcDoc)) 3
    { id := 3, type := JsonValueType.string, key := "c", value := some (JsValue.str "value"),
      depth := 3, isExpanded := false, hasChildren := false, childCount := none,
      parent := some 2, path := "root.a.b.c", index := none } (by decide)).2.2.2.1

/-! ## Skeleton lemmas: ids, parent-earlier, no duplicates -/

theorem jsize_pos (v : Json) : 1 ≤ jsize v := by
  cases v <;> simp [jsize]

theorem jsizeList_pos_iff (elems : JsonList) : 0 < jsizeList elems ↔ 0 < elems.length := by
  cases elems with
  | nil => simp [jsizeList, JsonList.length]
  | cons h t =>
    simp only [jsizeList, JsonList.length]
    have := jsize_pos h
    omega

theorem jsizeFields_pos_iff (fields : JsonFields) :
    0 < jsizeFields fields ↔ 0 < fields.length := by
  cases fields with
  | nil => simp [jsizeFields, JsonFields.length]
  | cons k v t =>
    simp only [jsizeFields, JsonFields.length]
    have := jsize_pos v
    omega

theorem str_ne_empty_of_data_pos (s : String) (h : 0 < s.data.length) : s ≠ "" :=
  fun hx => absurd (hx ▸ h) (by decide)

theorem str_mk_ne_empty (l : List Char) (h : l ≠ []) : (⟨l⟩ : String) ≠ "" := by
  intro hx
  apply h
  have hd := congrArg String.data hx
  simpa using hd

theorem natToString_ne_empty (n : Nat) : natToString n ≠ "" := by
  apply str_mk_ne_empty
  show natToCharsAux (n + 1) n ≠ []
  simp only [natToCharsAux]
  split
  · simp
  · simp

theorem currentPathOf_ne_empty (nodes : List TreeNode) (parentId : Option Nat)
    (path key : String) : currentPathOf nodes parentId path key ≠ "" := by
  unfold currentPathOf
  split
  · split
    · apply str_ne_empty_of_data_pos
      rw [String.data_append, String.data_append]
      simp only [List.length_append, List.length_cons, List.length_nil]
      omega
    · apply str_ne_empty_of_data_pos
      rw [String.data_append, String.data_append, String.data_append]
      simp only [List.length_append, List.length_cons, List.length_nil]
      omega
  · split
    · rename_i h2
      exact h2
    · decide

theorem currentPathOf_dotted (nodes : List TreeNode) (parentId : Option Nat)
    (path key : String) (hp : path ≠ "") (hk : key ≠ "") :
    currentPathOf nodes parentId path key = path ++ "." ++ key := by
  unfold currentPathOf
  rw [if_pos hp, if_pos hk]

theorem peB_append (seen : List Nat) (A B : List (Nat × Nat × Option Nat)) :
    peB seen (A ++ B) = (peB seen A && peB ((A.map fun x => x.1).reverse ++ seen) B) := by
  induction A generalizing seen with
  | nil => simp [peB]
  | cons x rest ih =>
    rcases x with ⟨i, dd, pp⟩
    simp only [List.cons_append, peB, List.map_cons, List.reverse_cons, List.append_eq]
    rw [ih (i :: seen), List.append_assoc]
    simp only [List.singleton_append, Bool.and_assoc]

theorem nodupB_range' (s n : Nat) : nodupB (List.range' s n) = true := by
  induction n generalizing s with
  | zero => rfl
  | succ m ih =>
    rw [List.range'_succ]
    simp only [nodupB, Bool.and_eq_true]
    refine ⟨?_, ih (s + 1)⟩
    simp only [Bool.not_eq_true']
    have hmem : s ∉ List.range' (s + 1) m := by
      intro hm
      have := List.mem_range'_1.1 hm
      omega
    simp [hmem]

mutual
theorem specSkeleton_ids (v : Json) (c d : Nat) (p : Option Nat) :
    (specSkeleton v c d p).map (fun x => x.1) = List.range' c (jsize v) := by
  cases v with
  | null => simp [specSkeleton, jsize, List.range'_succ]
  | str s => simp [specSkeleton, jsize, List.range'_succ]
  | num r => simp [specSkeleton, jsize, List.range'_succ]
  | bool b => simp [specSkeleton, jsize, List.range'_succ]
  | arr elems =>
    simp only [specSkeleton, jsize, List.map_cons]
    rw [specSkeletonList_ids elems (c + 1) (d + 1) c]
    rw [show 1 + jsizeList elems = jsizeList elems + 1 by omega, List.range'_succ]
  | obj fields =>
    simp only [specSkeleton, jsize, List.map_cons]
    rw [specSkeletonFields_ids fields (c + 1) (d + 1) c]
    rw [show 1 + jsizeFields fields = jsizeFields fields + 1 by omega, List.range'_succ]

theorem specSkeletonList_ids (vs : JsonList) (c d pid : Nat) :
    (specSkeletonList vs c d pid).map (fun x => x.1) = List.range' c (jsizeList vs) := by
  cases vs with
  | nil => simp [specSkeletonList, jsizeList]
  | cons h t =>
    simp only [specSkeletonList, List.map_append, jsizeList]
    rw [specSkeleton_ids h c d (some pid), specSkeletonList_ids t (c + jsize h) d pid]
    have hr := List.range'_append c (jsize h) (jsizeList t) 1
    simp only [Nat.one_mul] at hr
    rw [hr, Nat.add_comm (jsizeList t) (jsize h)]

theorem specSkeletonFields_ids (fs : JsonFields) (c d pid : Nat) :
    (specSkeletonFields fs c d pid).map (fun x => x.1) = List.range' c (jsizeFields fs) := by
  cases fs with
  | nil => simp [specSkeletonFields, jsizeFields]
  | cons k v t =>
    simp only [specSkeletonFields, List.map_append, jsizeFields]
    rw [specSkeleton_ids v c d (some pid), specSkeletonFields_ids t (c + jsize v) d pid]
    have hr := List.range'_append c (jsize v) (jsizeFields t) 1
    simp only [Nat.one_mul] at hr
    rw [hr, Nat.add_comm (jsizeFields t) (jsize v)]
end

mutual
theorem specSkeleton_peB (v : Json) (c d : Nat) (p : Option Nat) (seen : List Nat)
    (hp : ∀ q, p = some q → q ∈ seen) :
    peB seen (specSkeleton v c d p) = true := by
  cases v with
  | null =>
    cases p with
    | none => simp [specSkeleton, peB]
    | some q => simp [specSkeleton, peB, hp q rfl]
  | str s =>
    cases p with
    | none => simp [specSkeleton, peB]
    | some q => simp [specSkeleton, peB, hp q rfl]
  | num r =>
    cases p with
    | none => simp [specSkeleton, peB]
    | some q => simp [specSkeleton, peB, hp q rfl]
  | bool b =>
    cases p with
    | none => simp [specSkeleton, peB]
    | some q => simp [specSkeleton, peB, hp q rfl]
  | arr elems =>
    simp only [specSkeleton, peB, Bool.and_eq_true]
    constructor
    · cases p with
      | none => rfl
      | some q => simpa using hp q rfl
    · exact specSkeletonList_peB elems (c + 1) (d + 1) c (c :: seen) (List.mem_cons_self c seen)
  | obj fields =>
    simp only [specSkeleton, peB, Bool.and_eq_true]
    constructor
    · cases p with
      | none => rfl
      | some q => simpa using hp q rfl
    · exact specSkeletonFields_peB fields (c + 1) (d + 1) c (c :: seen)
        (List.mem_cons_self c seen)

theorem specSkeletonList_peB (vs : JsonList) (c d pid : Nat) (seen : List Nat)
    (hp : pid ∈ seen) :
    peB seen (specSkeletonList vs c d pid) = true := by
  cases vs with
  | nil => rfl
  | cons h t =>
    simp only [specSkeletonList]
    rw [peB_append]
    simp only [Bool.and_eq_true]
    constructor
    · exact specSkeleton_peB h c d (some pid) seen (fun q hq => (Option.some.inj hq) ▸ hp)
    · exact specSkeletonList_peB t (c + jsize h) d pid _ (List.mem_append_right _ hp)

theorem specSkeletonFields_peB (fs : JsonFields) (c d pid : Nat) (seen : List Nat)
    (hp : pid ∈ seen) :
    peB seen (specSkeletonFields fs c d pid) = true := by
  cases fs with
  | nil => rfl
  | cons k v t =>
    simp only [specSkeletonFields]
    rw [peB_append]
    simp only [Bool.and_eq_true]
    constructor
    · exact specSkeleton_peB v c d (some pid) seen (fun q hq => (Option.some.inj hq) ▸ hp)
    · exact specSkeletonFields_peB t (c + jsize v) d pid _ (List.mem_append_right _ hp)
end

/-! ## The master structure lemma for the builder -/

theorem specSkeletonList_length (vs : JsonList) (c d pid : Nat) :
    (specSkeletonList vs c d pid).length = jsizeList vs := by
  have := congrArg List.length (specSkeletonList_ids vs c d pid)
  simpa using this

theorem specSkeletonFields_length (fs : JsonFields) (c d pid : Nat) :
    (specSkeletonFields fs c d pid).length = jsizeFields fs := by
  have := congrArg List.length (specSkeletonFields_ids fs c d pid)
  simpa using this

theorem mem_id_of_projSkel (delta : List TreeNode) (sk : List (Nat × Nat × Option Nat))
    (h : projSkel delta = sk) (n : TreeNode) (hn : n ∈ delta) :
    n.id ∈ sk.map (fun x => x.1) := by
  rw [← h]
  exact List.mem_map_of_mem _ (List.mem_map_of_mem _ hn)

mutual
theorem buildTree_master (v : Json) (ns : List TreeNode) (c d : Nat) (k : String)
    (p : Option Nat) (path : String) (idx : Option Nat) :
    ∃ delta : List TreeNode,
      (buildTree v ns c d k p path idx).1 = ns ++ delta ∧
      (buildTree v ns c d k p path idx).2 = c + jsize v ∧
      projSkel delta = specSkeleton v c d p ∧
      (∀ n ∈ delta, n.path ≠ "") ∧
      (∀ n ∈ delta, n.id = c → n.key = k ∧ n.path = currentPathOf ns p path k) ∧
      (keysNonEmptyB v = true → DotLinked c p delta) := by
  cases v with
  | null =>
    refine ⟨[{ id := c, type := .null, key := k, value := some .null, depth := d, isExpanded := false, hasChildren := false, childCount := none, parent := p, path := currentPathOf ns p path k, index := idx }], ?_, ?_, ?_, ?_, ?_, ?_⟩
    · simp [buildTree]
    · simp [buildTree, jsize]
    · simp [projSkel, specSkeleton]
    · intro n hn
      rw [List.mem_singleton] at hn
      rw [hn]
      exact currentPathOf_ne_empty ns p path k
    · intro n hn _
      rw [List.mem_singleton] at hn
      rw [hn]
      exact ⟨rfl, rfl⟩
    · intro _ n hn
      rw [List.mem_singleton] at hn
      rw [hn]
      exact Or.inl ⟨rfl, rfl⟩
  | str s =>
    refine ⟨[{ id := c, type := .string, key := k, value := some (.str s), depth := d, isExpanded := false, hasChildren := false, childCount := none, parent := p, path := currentPathOf ns p path k, index := idx }], ?_, ?_, ?_, ?_, ?_, ?_⟩
    · simp [buildTree]
    · simp [buildTree, jsize]
    · simp [projSkel, specSkeleton]
    · intro n hn
      rw [List.mem_singleton] at hn
      rw [hn]
      exact currentPathOf_ne_empty ns p path k
    · intro n hn _
      rw [List.mem_singleton] at hn
      rw [hn]
      exact ⟨rfl, rfl⟩
    · intro _ n hn
      rw [List.mem_singleton] at hn
      rw [hn]
      exact Or.inl ⟨rfl, rfl⟩
  | num r =>
    refine ⟨[{ id := c, type := .number, key := k, value := some (.num r), depth := d, isExpanded := false, hasChildren := false, childCount := none, parent := p, path := currentPathOf ns p path k, index := idx }], ?_, ?_, ?_, ?_, ?_, ?_⟩
    · simp [buildTree]
    · simp [buildTree, jsize]
    · simp [projSkel, specSkeleton]
    · intro n hn
      rw [List.mem_singleton] at hn
      rw [hn]
      exact currentPathOf_ne_empty ns p path k
    · intro n hn _
      rw [List.mem_singleton] at hn
      rw [hn]
      exact ⟨rfl, rfl⟩
    · intro _ n hn
      rw [List.mem_singleton] at hn
      rw [hn]
      exact Or.inl ⟨rfl, rfl⟩
  | bool b =>
    refine ⟨[{ id := c, type := .boolean, key := k, value := some (.bool b), depth := d, isExpanded := false, hasChildren := false, childCount := none, parent := p, path := currentPathOf ns p path k, index := idx }], ?_, ?_, ?_, ?_, ?_, ?_⟩
    · simp [buildTree]
    · simp [buildTree, jsize]
    · simp [projSkel, specSkeleton]
    · intro n hn
      rw [List.mem_singleton] at hn
      rw [hn]
      exact currentPathOf_ne_empty ns p path k
    · intro n hn _
      rw [List.mem_singleton] at hn
      rw [hn]
      exact ⟨rfl, rfl⟩
    · intro _ n hn
      rw [List.mem_singleton] at hn
      rw [hn]
      exact Or.inl ⟨rfl, rfl⟩
  | arr elems =>
    have hstep : buildTree (.arr elems) ns c d k p path idx = buildTreeArr elems (ns ++ [{ id := c, type := .array, key := k, value := none, depth := d, isExpanded := decide (d < 2), hasChildren := decide (0 < elems.length), childCount := some elems.length, parent := p, path := currentPathOf ns p path k, index := idx }]) (c + 1) (d + 1) c (currentPathOf ns p path k) 0 := by
      simp only [buildTree]
    obtain ⟨d1, g1, g2, g3, g4, g5⟩ := buildTreeArr_master elems (ns ++ [{ id := c, type := .array, key := k, value := none, depth := d, isExpanded := decide (d < 2), hasChildren := decide (0 < elems.length), childCount := some elems.length, parent := p, path := currentPathOf ns p path k, index := idx }]) (c + 1) (d + 1) c (currentPathOf ns p path k) 0
    refine ⟨{ id := c, type := .array, key := k, value := none, depth := d, isExpanded := decide (d < 2), hasChildren := decide (0 < elems.length), childCount := some elems.length, parent := p, path := currentPathOf ns p path k, index := idx } :: d1, ?_, ?_, ?_, ?_, ?_, ?_⟩
    · rw [hstep, g1, List.append_assoc]
      rfl
    · rw [hstep, g2]
      simp only [jsize]
      omega
    · rw [show projSkel ({ id := c, type := JsonValueType.array, key := k, value := none, depth := d, isExpanded := decide (d < 2), hasChildren := decide (0 < elems.length), childCount := some elems.length, parent := p, path := currentPathOf ns p path k, index := idx } :: d1) = (c, d, p) :: projSkel d1 from rfl, g3]
      rfl
    · intro n hn
      rcases List.mem_cons.1 hn with heq | hmem
      · rw [heq]
        exact currentPathOf_ne_empty ns p path k
      · exact g4 n hmem
    · intro n hn hid
      rcases List.mem_cons.1 hn with heq | hmem
      · rw [heq]
        exact ⟨rfl, rfl⟩
      · exfalso
        have hidm := mem_id_of_projSkel d1 _ g3 n hmem
        rw [specSkeletonList_ids] at hidm
        have hb := List.mem_range'_1.1 hidm
        rw [hid] at hb
        omega
    · intro hkeys n hn
      have hpp : currentPathOf ns p path k ≠ "" := currentPathOf_ne_empty ns p path k
      have hfl := g5 ⟨by simpa [keysNonEmptyB] using hkeys, hpp⟩
      rcases List.mem_cons.1 hn with heq | hmem
      · exact Or.inl ⟨by rw [heq], by rw [heq]⟩
      · rcases hfl n hmem with ⟨hpar, hkey, hpath2⟩ | ⟨q, hq, h1, h2, h3, h4⟩
        · refine Or.inr ⟨_, List.mem_cons_self _ _, hpar, ?_, hkey, hpath2⟩
          show decide (0 < elems.length) = true
          rw [decide_eq_true_eq, ← jsizeList_pos_iff]
          have hlen : d1.length = jsizeList elems := by
            have := congrArg List.length g3
            simpa [projSkel, specSkeletonList_length] using this
          have hpos : 0 < d1.length := List.length_pos_of_mem hmem
          omega
        · exact Or.inr ⟨q, List.mem_cons_of_mem _ hq, h1, h2, h3, h4⟩
  | obj fields =>
    have hstep : buildTree (.obj fields) ns c d k p path idx = buildTreeObj fields (ns ++ [{ id := c, type := .object, key := k, value := none, depth := d, isExpanded := decide (d < 2), hasChildren := decide (0 < fields.length), childCount := some fields.length, parent := p, path := currentPathOf ns p path k, index := idx }]) (c + 1) (d + 1) c (currentPathOf ns p path k) := by
      simp only [buildTree]
    obtain ⟨d1, g1, g2, g3, g4, g5⟩ := buildTreeObj_master fields (ns ++ [{ id := c, type := .object, key := k, value := none, depth := d, isExpanded := decide (d < 2), hasChildren := decide (0 < fields.length), childCount := some fields.length, parent := p, path := currentPathOf ns p path k, index := idx }]) (c + 1) (d + 1) c (currentPathOf ns p path k)
    refine ⟨{ id := c, type := .object, key := k, value := none, depth := d, isExpanded := decide (d < 2), hasChildren := decide (0 < fields.length), childCount := some fields.length, parent := p, path := currentPathOf ns p path k, index := idx } :: d1, ?_, ?_, ?_, ?_, ?_, ?_⟩
    · rw [hstep, g1, List.append_assoc]
      rfl
    · rw [hstep, g2]
      simp only [jsize]
      omega
    · rw [show projSkel ({ id := c, type := JsonValueType.object, key := k, value := none, depth := d, isExpanded := decide (d < 2), hasChildren := decide (0 < fields.length), childCount := some fields.length, parent := p, path := currentPathOf ns p path k, index := idx } :: d1) = (c, d, p) :: projSkel d1 from rfl, g3]
      rfl
    · intro n hn
      rcases List.mem_cons.1 hn with heq | hmem
      · rw [heq]
        exact currentPathOf_ne_empty ns p path k
      · exact g4 n hmem
    · intro n hn hid
      rcases List.mem_cons.1 hn with heq | hmem
      · rw [heq]
        exact ⟨rfl, rfl⟩
      · exfalso
        have hidm := mem_id_of_projSkel d1 _ g3 n hmem
        rw [specSkeletonFields_ids] at hidm
        have hb := List.mem_range'_1.1 hidm
        rw [hid] at hb
        omega
    · intro hkeys n hn
      have hpp : currentPathOf ns p path k ≠ "" := currentPathOf_ne_empty ns p path k
      have hfl := g5 ⟨by simpa [keysNonEmptyB] using hkeys, hpp⟩
      rcases List.mem_cons.1 hn with heq | hmem
      · exact Or.inl ⟨by rw [heq], by rw [heq]⟩
      · rcases hfl n hmem with ⟨hpar, hkey, hpath2⟩ | ⟨q, hq, h1, h2, h3, h4⟩
        · refine Or.inr ⟨_, List.mem_cons_self _ _, hpar, ?_, hkey, hpath2⟩
          show decide (0 < fields.length) = true
          rw [decide_eq_true_eq, ← jsizeFields_pos_iff]
          have hlen : d1.length = jsizeFields fields := by
            have := congrArg List.length g3
            simpa [projSkel, specSkeletonFields_length] using this
          have hpos : 0 < d1.length := List.length_pos_of_mem hmem
          omega
        · exact Or.inr ⟨q, List.mem_cons_of_mem _ hq, h1, h2, h3, h4⟩

theorem buildTreeArr_master (items : JsonList) (ns : List TreeNode) (c d : Nat)
    (pid : Nat) (path : String) (idx : Nat) :
    ∃ delta : List TreeNode,
      (buildTreeArr items ns c d pid path idx).1 = ns ++ delta ∧
      (buildTreeArr items ns c d pid path idx).2 = c + jsizeList items ∧
      projSkel delta = specSkeletonList items c d pid ∧
      (∀ n ∈ delta, n.path ≠ "") ∧
      (keysNonEmptyListB items = true ∧ path ≠ "" → ForestLinked pid path delta) := by
  cases items with
  | nil =>
    refine ⟨[], by simp [buildTreeArr], by simp [buildTreeArr, jsizeList], rfl, ?_, ?_⟩
    · intro n hn
      cases hn
    · intro _ n hn
      cases hn
  | cons item rest =>
    obtain ⟨dh, e1, e2, e3, e4, e5, e6⟩ :=
      buildTree_master item ns c d (natToString idx) (some pid) path (some idx)
    obtain ⟨dr, f1, f2, f3, f4, f5⟩ := buildTreeArr_master rest
      (buildTree item ns c d (natToString idx) (some pid) path (some idx)).1
      (buildTree item ns c d (natToString idx) (some pid) path (some idx)).2
      d pid path (idx + 1)
    rw [e2] at f3
    have hstep1 : (buildTreeArr (.cons item rest) ns c d pid path idx).1 =
        (buildTreeArr rest
          (buildTree item ns c d (natToString idx) (some pid) path (some idx)).1
          (buildTree item ns c d (natToString idx) (some pid) path (some idx)).2
          d pid path (idx + 1)).1 := by
      simp only [buildTreeArr]
    have hstep2 : (buildTreeArr (.cons item rest) ns c d pid path idx).2 =
        (buildTreeArr rest
          (buildTree item ns c d (natToString idx) (some pid) path (some idx)).1
          (buildTree item ns c d (natToString idx) (some pid) path (some idx)).2
          d pid path (idx + 1)).2 := by
      simp only [buildTreeArr]
    refine ⟨dh ++ dr, ?_, ?_, ?_, ?_, ?_⟩
    · rw [hstep1, f1, e1, List.append_assoc]
    · rw [hstep2, f2, e2]
      simp only [jsizeList]
      omega
    · rw [show projSkel (dh ++ dr) = projSkel dh ++ projSkel dr from List.map_append _ _ _,
        e3, f3]
      rfl
    · intro n hn
      rcases List.mem_append.1 hn with hmem | hmem
      · exact e4 n hmem
      · exact f4 n hmem
    · rintro ⟨hkeys, hpp⟩
      have hk12 : keysNonEmptyB item = true ∧ keysNonEmptyListB rest = true := by
        simpa [keysNonEmptyListB, Bool.and_eq_true] using hkeys
      have hdl := e6 hk12.1
      have hfr := f5 ⟨hk12.2, hpp⟩
      intro n hn
      rcases List.mem_append.1 hn with hmem | hmem
      · rcases hdl n hmem with ⟨hid, hpar⟩ | ⟨q, hq, h1, h2, h3, h4⟩
        · obtain ⟨hkey, hpath2⟩ := e5 n hmem hid
          refine Or.inl ⟨hpar, ?_, ?_⟩
          · rw [hkey]
            exact natToString_ne_empty idx
          · rw [hpath2, hkey, currentPathOf_dotted ns (some pid) path (natToString idx) hpp (natToString_ne_empty idx)]
        · exact Or.inr ⟨q, List.mem_append_left _ hq, h1, h2, h3, h4⟩
      · rcases hfr n hmem with h | ⟨q, hq, h1, h2, h3, h4⟩
        · exact Or.inl h
        · exact Or.inr ⟨q, List.mem_append_right _ hq, h1, h2, h3, h4⟩

theorem buildTreeObj_master (items : JsonFields) (ns : List TreeNode) (c d : Nat)
    (pid : Nat) (path : String) :
    ∃ delta : List TreeNode,
      (buildTreeObj items ns c d pid path).1 = ns ++ delta ∧
      (buildTreeObj items ns c d pid path).2 = c + jsizeFields items ∧
      projSkel delta = specSkeletonFields items c d pid ∧
      (∀ n ∈ delta, n.path ≠ "") ∧
      (keysNonEmptyFieldsB items = true ∧ path ≠ "" → ForestLinked pid path delta) := by
  cases items with
  | nil =>
    refine ⟨[], by simp [buildTreeObj], by simp [buildTreeObj, jsizeFields], rfl, ?_, ?_⟩
    · intro n hn
      cases hn
    · intro _ n hn
      cases hn
  | cons k v rest =>
    obtain ⟨dh, e1, e2, e3, e4, e5, e6⟩ :=
      buildTree_master v ns c d k (some pid) path none
    obtain ⟨dr, f1, f2, f3, f4, f5⟩ := buildTreeObj_master rest
      (buildTree v ns c d k (some pid) path none).1
      (buildTree v ns c d k (some pid) path none).2
      d pid path
    rw [e2] at f3
    have hstep1 : (buildTreeObj (.cons k v rest) ns c d pid path).1 =
        (buildTreeObj rest
          (buildTree v ns c d k (some pid) path none).1
          (buildTree v ns c d k (some pid) path none).2
          d pid path).1 := by
      simp only [buildTreeObj]
    have hstep2 : (buildTreeObj (.cons k v rest) ns c d pid path).2 =
        (buildTreeObj rest
          (buildTree v ns c d k (some pid) path none).1
          (buildTree v ns c d k (some pid) path none).2
          d pid path).2 := by
      simp only [buildTreeObj]
    refine ⟨dh ++ dr, ?_, ?_, ?_, ?_, ?_⟩
    · rw [hstep1, f1, e1, List.append_assoc]
    · rw [hstep2, f2, e2]
      simp only [jsizeFields]
      omega
    · rw [show projSkel (dh ++ dr) = projSkel dh ++ projSkel dr from List.map_append _ _ _,
        e3, f3]
      rfl
    · intro n hn
      rcases List.mem_append.1 hn with hmem | hmem
      · exact e4 n hmem
      · exact f4 n hmem
    · rintro ⟨hkeys, hpp⟩
      have hk12 : (¬k = "" ∧ keysNonEmptyB v = true) ∧ keysNonEmptyFieldsB rest = true := by
        simpa [keysNonEmptyFieldsB, Bool.and_eq_true] using hkeys
      have hkne : k ≠ "" := hk12.1.1
      have hdl := e6 hk12.1.2
      have hfr := f5 ⟨hk12.2, hpp⟩
      intro n hn
      rcases List.mem_append.1 hn with hmem | hmem
      · rcases hdl n hmem with ⟨hid, hpar⟩ | ⟨q, hq, h1, h2, h3, h4⟩
        · obtain ⟨hkey, hpath2⟩ := e5 n hmem hid
          refine Or.inl ⟨hpar, ?_, ?_⟩
          · rw [hkey]
            exact hkne
          · rw [hpath2, hkey, currentPathOf_dotted ns (some pid) path k hpp hkne]
        · exact Or.inr ⟨q, List.mem_append_left _ hq, h1, h2, h3, h4⟩
      · rcases hfr n hmem with h | ⟨q, hq, h1, h2, h3, h4⟩
        · exact Or.inl h
        · exact Or.inr ⟨q, List.mem_append_right _ hq, h1, h2, h3, h4⟩
end

/-! ## C1: the built list is the canonical pre-order flattening -/

theorem projSkel_map (ns : List TreeNode) (g : TreeNode → TreeNode)
    (h : ∀ n, (g n).id = n.id ∧ (g n).depth = n.depth ∧ (g n).parent = n.parent) :
    projSkel (ns.map g) = projSkel ns := by
  induction ns with
  | nil => rfl
  | cons a t ih =>
    simp only [List.map_cons, projSkel] at ih ⊢
    rw [(h a).1, (h a).2.1, (h a).2.2, ih]

theorem idsMap_eq (ns : List TreeNode) :
    (ns.map fun n => n.id) = (projSkel ns).map (fun x => x.1) := by
  simp only [projSkel, List.map_map]
  rfl

theorem wfB_of_projSkel (ns : List TreeNode) (v : Json)
    (h : projSkel ns = specSkeleton v 0 0 none) : wfB ns = true := by
  have h1 : peB [] (projSkel ns) = true := by
    rw [h]
    exact specSkeleton_peB v 0 0 none [] (by intro q hq; cases hq)
  have h2 : nodupB (ns.map fun n => n.id) = true := by
    rw [idsMap_eq, h, specSkeleton_ids]
    exact nodupB_range' 0 (jsize v)
  simp [wfB, h1, h2]

theorem buildNodes_projSkel (v : Json) :
    projSkel (buildNodes v) = specSkeleton v 0 0 none := by
  obtain ⟨delta, g1, g2, g3, g4, g5, g6⟩ := buildTree_master v [] 0 0 "" none "" none
  unfold buildNodes
  rw [g1]
  simpa using g3

theorem idp_preserved_condSet (n : TreeNode) (cnd : Bool) (x : Bool) :
    ((if cnd then { n with isExpanded := x } else n).id = n.id ∧
     (if cnd then { n with isExpanded := x } else n).depth = n.depth ∧
     (if cnd then { n with isExpanded := x } else n).parent = n.parent) := by
  split
  · exact ⟨rfl, rfl, rfl⟩
  · exact ⟨rfl, rfl, rfl⟩

/-- C1: for every JSON document, the (id, depth, parent) projection of the
built node list equals the canonical pre-order skeleton of the document
(parent immediately before its descendants, siblings in source order, depths
incremented per level, ids from the counter); in particular every non-root
node's parent reference names an earlier entry and ids are unique
(`wfB`); and all five mutation operators preserve the projection — hence the
pre-order property — exactly. -/
theorem c1_build_preorder (v : Json) :
    projSkel (buildNodes v) = specSkeleton v 0 0 none ∧
    wfB (buildNodes v) = true ∧
    (∀ tid : Nat, projSkel (toggleNode (buildNodes v) tid) = specSkeleton v 0 0 none ∧
      wfB (toggleNode (buildNodes v) tid) = true) ∧
    (projSkel (expandAll (buildNodes v)) = specSkeleton v 0 0 none ∧
      wfB (expandAll (buildNodes v)) = true) ∧
    (projSkel (collapseAll (buildNodes v)) = specSkeleton v 0 0 none ∧
      wfB (collapseAll (buildNodes v)) = true) ∧
    (∀ tid : Nat, projSkel (expandToNode (buildNodes v) tid) = specSkeleton v 0 0 none ∧
      wfB (expandToNode (buildNodes v) tid) = true) ∧
    (∀ mids : List Nat,
      projSkel (expandToMatches (buildNodes v) mids) = specSkeleton v 0 0 none ∧
      wfB (expandToMatches (buildNodes v) mids) = true) := by
  have hbase := buildNodes_projSkel v
  refine ⟨hbase, wfB_of_projSkel _ v hbase, ?_, ?_, ?_, ?_, ?_⟩
  · intro tid
    have hp : projSkel (toggleNode (buildNodes v) tid) = projSkel (buildNodes v) :=
      projSkel_map (buildNodes v) _ (fun n => idp_preserved_condSet n _ _)
    exact ⟨hp.trans hbase, wfB_of_projSkel _ v (hp.trans hbase)⟩
  · have hp : projSkel (expandAll (buildNodes v)) = projSkel (buildNodes v) :=
      projSkel_map (buildNodes v) _ (fun n => ⟨rfl, rfl, rfl⟩)
    exact ⟨hp.trans hbase, wfB_of_projSkel _ v (hp.trans hbase)⟩
  · have hp : projSkel (collapseAll (buildNodes v)) = projSkel (buildNodes v) :=
      projSkel_map (buildNodes v) _ (fun n => ⟨rfl, rfl, rfl⟩)
    exact ⟨hp.trans hbase, wfB_of_projSkel _ v (hp.trans hbase)⟩
  · intro tid
    have hp : projSkel (expandToNode (buildNodes v) tid) = projSkel (buildNodes v) := by
      unfold expandToNode
      cases (buildNodes v).find? fun n => n.id == tid with
      | none => rfl
      | some t => exact projSkel_map (buildNodes v) _ (fun n => idp_preserved_condSet n _ _)
    exact ⟨hp.trans hbase, wfB_of_projSkel _ v (hp.trans hbase)⟩
  · intro mids
    have hp : projSkel (expandToMatches (buildNodes v) mids) = projSkel (buildNodes v) :=
      projSkel_map (buildNodes v) _ (fun n => idp_preserved_condSet n _ _)
    exact ⟨hp.trans hbase, wfB_of_projSkel _ v (hp.trans hbase)⟩

/-! ## C2: the visibility resolver -/

theorem peB_index (l : List TreeNode) :
    ∀ seen : List Nat, peB seen (projSkel l) = true →
    ∀ i (hi : i < l.length) (pid : Nat), (l.get ⟨i, hi⟩).parent = some pid →
      pid ∈ seen ∨ ∃ j, ∃ hj : j < l.length, j < i ∧ (l.get ⟨j, hj⟩).id = pid := by
  induction l with
  | nil =>
    intro seen _ i hi
    simp at hi
  | cons a t ih =>
    intro seen hpe i hi pid hp
    simp only [projSkel, List.map_cons, peB, Bool.and_eq_true] at hpe
    cases i with
    | zero =>
      left
      have h1 := hpe.1
      rw [show (a :: t).get ⟨0, hi⟩ = a from rfl] at hp
      rw [hp] at h1
      simpa using h1
    | succ i2 =>
      have hi2 : i2 < t.length := by
        simp only [List.length_cons] at hi
        omega
      rw [List.get_cons_succ] at hp
      have := ih (a.id :: seen) hpe.2 i2 hi2 pid hp
      rcases this with hmem | ⟨j, hj, hji, hid⟩
      · rcases List.mem_cons.1 hmem with heq | hseen
        · right
          refine ⟨0, by simp, by omega, ?_⟩
          rw [show (a :: t).get ⟨0, by simp⟩ = a from rfl]
          exact heq.symm
        · left
          exact hseen
      · right
        refine ⟨j + 1, by simp only [List.length_cons]; omega, by omega, ?_⟩
        rw [List.get_cons_succ]
        exact hid

theorem nodupB_iff (l : List Nat) : nodupB l = true ↔ l.Nodup := by
  induction l with
  | nil => simp [nodupB]
  | cons x t ih =>
    simp only [nodupB, Bool.and_eq_true, Bool.not_eq_true', List.nodup_cons, ← ih]
    constructor
    · rintro ⟨h1, h2⟩
      refine ⟨?_, h2⟩
      intro hmem
      rw [show t.contains x = true by simpa using hmem] at h1
      cases h1
    · rintro ⟨h1, h2⟩
      refine ⟨?_, h2⟩
      simpa using h1

theorem filter_id_of_nodup (ns : List TreeNode)
    (hnd : nodupB (ns.map fun n => n.id) = true) :
    ∀ m ∈ ns, ns.filter (fun n => n.id == m.id) = [m] := by
  induction ns with
  | nil =>
    intro m hm
    cases hm
  | cons a t ih =>
    intro m hm
    simp only [List.map_cons, nodupB, Bool.and_eq_true, Bool.not_eq_true'] at hnd
    have hna : a.id ∉ t.map fun n => n.id := by
      intro hmem
      rw [show (t.map fun n => n.id).contains a.id = true by simpa using hmem] at hnd
      exact absurd hnd.1 (by simp)
    rcases List.mem_cons.1 hm with heq | hmem
    · subst heq
      rw [List.filter_cons_of_pos (by simp)]
      have ht : t.filter (fun n => n.id == m.id) = [] := by
        rw [List.filter_eq_nil_iff]
        intro b hb
        simp only [beq_iff_eq]
        intro heq
        exact hna (heq ▸ List.mem_map_of_mem (fun n => n.id) hb)
      rw [ht]
    · have hne : a.id ≠ m.id := by
        intro heq
        exact hna (heq ▸ List.mem_map_of_mem (fun n => n.id) hmem)
      rw [List.filter_cons_of_neg (by simpa using hne)]
      exact ih hnd.2 m hmem

theorem nodeMapGet_of_mem (ns : List TreeNode)
    (hnd : nodupB (ns.map fun n => n.id) = true) (m : TreeNode) (hm : m ∈ ns) :
    nodeMapGet ns m.id = some m := by
  unfold nodeMapGet
  rw [filter_id_of_nodup ns hnd m hm]
  rfl

theorem nodeMapGet_mem (ns : List TreeNode) (pid : Nat) (p : TreeNode)
    (h : nodeMapGet ns pid = some p) : p ∈ ns := by
  unfold nodeMapGet at h
  have := List.mem_of_mem_getLast? h
  exact (List.mem_filter.1 this).1

theorem nodeMapGet_id (ns : List TreeNode) (pid : Nat) (p : TreeNode)
    (h : nodeMapGet ns pid = some p) : p.id = pid := by
  unfold nodeMapGet at h
  have := List.mem_of_mem_getLast? h
  have h2 := (List.mem_filter.1 this).2
  simpa using h2

/-- The ancestor walk of the visibility resolver returns `true` exactly when
every ancestor on the parent chain is expanded, for any node of a
well-formed list and any fuel exceeding the node's position. -/
theorem walk_iff_chain (ns : List TreeNode)
    (hpe : peB [] (projSkel ns) = true)
    (hnd : nodupB (ns.map fun n => n.id) = true) :
    ∀ i, ∀ hi : i < ns.length, ∀ fuel, i < fuel →
      (ancestorsExpanded ns (ns.get ⟨i, hi⟩).parent fuel = true ↔
        ∀ a, AncChain ns (ns.get ⟨i, hi⟩).parent a → a.isExpanded = true) := by
  intro i
  induction i using Nat.strong_induction_on with
  | _ i IH =>
    intro hi fuel hfuel
    cases hpar : (ns.get ⟨i, hi⟩).parent with
    | none =>
      constructor
      · intro _ a hc
        cases hc
      · intro _
        cases fuel with
        | zero => rfl
        | succ f => rfl
    | some pid =>
      have hj3 : ∃ j, ∃ hj : j < ns.length, j < i ∧ (ns.get ⟨j, hj⟩).id = pid := by
        rcases peB_index ns [] hpe i hi pid hpar with hmem | h
        · cases hmem
        · exact h
      obtain ⟨j, hj, hji, hjid⟩ := hj3
      have hlook : nodeMapGet ns pid = some (ns.get ⟨j, hj⟩) := by
        have := nodeMapGet_of_mem ns hnd (ns.get ⟨j, hj⟩) (List.get_mem ns j hj)
        rwa [hjid] at this
      cases fuel with
      | zero => omega
      | succ f =>
        have hwalk : ancestorsExpanded ns (some pid) (f + 1) =
            ((ns.get ⟨j, hj⟩).isExpanded &&
              ancestorsExpanded ns (ns.get ⟨j, hj⟩).parent f) := by
          simp [ancestorsExpanded, hlook]
        have hrec := IH j hji hj f (by omega)
        constructor
        · intro hw a hc
          rw [hwalk, Bool.and_eq_true] at hw
          rcases ancChain_some_elim ns pid a (ns.get ⟨j, hj⟩) hlook hc with heq | hc2
          · rw [heq]
            exact hw.1
          · exact (hrec.1 hw.2) a hc2
        · intro hall
          rw [hwalk, Bool.and_eq_true]
          constructor
          · exact hall (ns.get ⟨j, hj⟩) (AncChain.head hlook)
          · refine hrec.2 ?_
            intro a hc
            exact hall a (AncChain.tail hlook hc)

/-- C2: on any node list satisfying the data-model invariants (parent
references point to earlier entries; ids unique — both hold for every built
list by `c1_build_preorder`), a node is kept by the visibility resolver iff
every ancestor reached through its `parentId` chain is expanded; a node with
no parent is always kept; and the output is a duplicate-free sublist of the
input, preserving its order. -/
theorem c2_visibility_characterization (ns : List TreeNode)
    (hpe : peB [] (projSkel ns) = true)
    (hnd : nodupB (ns.map fun n => n.id) = true) :
    (∀ n ∈ ns, (n ∈ getVisibleNodes ns ↔
      ∀ a, AncChain ns n.parent a → a.isExpanded = true)) ∧
    (∀ n ∈ ns, n.parent = none → n ∈ getVisibleNodes ns) ∧
    List.Sublist (getVisibleNodes ns) ns ∧
    (getVisibleNodes ns).Nodup := by
  have hnodup : ns.Nodup := List.Nodup.of_map _ ((nodupB_iff _).1 hnd)
  refine ⟨?_, ?_, List.filter_sublist ns, List.Nodup.filter _ hnodup⟩
  · intro n hn
    obtain ⟨⟨i, hi⟩, hget⟩ := List.mem_iff_get.1 hn
    have hb := walk_iff_chain ns hpe hnd i hi ns.length hi
    rw [hget] at hb
    constructor
    · intro hv
      have hp := (List.mem_filter.1 hv).2
      exact hb.1 hp
    · intro hall
      exact List.mem_filter.2 ⟨hn, hb.2 hall⟩
  · intro n hn hp
    apply List.mem_filter.2
    refine ⟨hn, ?_⟩
    rw [hp]
    cases hl : ns.length with
    | zero => rfl
    | succ f => rfl

/-- Witness for C2 at the concrete build of `{"a":{"b":{"c":"value"}}}`. -/
theorem c2_visibility_witness :
    (∀ n ∈ buildNodes abcDoc, (n ∈ getVisibleNodes (buildNodes abcDoc) ↔
      ∀ a, AncChain (buildNodes abcDoc) n.parent a → a.isExpanded = true)) ∧
    (∀ n ∈ buildNodes abcDoc, n.parent = none →
      n ∈ getVisibleNodes (buildNodes abcDoc)) ∧
    List.Sublist (getVisibleNodes (buildNodes abcDoc)) (buildNodes abcDoc) ∧
    (getVisibleNodes (buildNodes abcDoc)).Nodup :=
  c2_visibility_characterization (buildNodes abcDoc) (by decide) (by decide)

/-! ## C4: search membership and ancestor-path machinery -/

theorem setAdd_setAdd (a : List Nat) (x : Nat) : setAdd (setAdd a x) x = setAdd a x := by
  by_cases h : x ∈ a
  · have h1 : setAdd a x = a := by rw [setAdd, if_pos (by simpa using h)]
    rw [h1, h1]
  · have h1 : setAdd a x = a ++ [x] := by rw [setAdd, if_neg (by simpa using h)]
    rw [h1, setAdd, if_pos (by simp)]

theorem mem_setAdd (a : List Nat) (x y : Nat) : x ∈ setAdd a y ↔ x ∈ a ∨ x = y := by
  unfold setAdd
  split
  · rename_i h
    constructor
    · exact Or.inl
    · rintro (hx | rfl)
      · exact hx
      · simpa using h
  · simp

theorem searchStep_adds (q : String) (acc : List Nat) (n : TreeNode) :
    searchStep (lcList q.data) q acc n = if nodeMatches n q then setAdd acc n.id else acc := by
  unfold searchStep nodeMatches
  cases hv : n.value with
  | none =>
    cases hb1 : (n.key ≠ "" && listIncludes (lcList n.key.data) (lcList q.data)) <;>
      cases hb3 : (n.type == JsonValueType.number &&
        listIncludes (jsStringOfValue none).data q.data) <;>
      cases hb4 : listIncludes (lcList n.path.data) (lcList q.data) <;>
      (simp only [hb1, hb3, hb4]; simp [setAdd_setAdd])
  | some jv =>
    cases jv with
    | str s =>
      cases hb1 : (n.key ≠ "" && listIncludes (lcList n.key.data) (lcList q.data)) <;>
        cases hb2 : (n.type == JsonValueType.string &&
          listIncludes (lcList s.data) (lcList q.data)) <;>
        cases hb3 : (n.type == JsonValueType.number &&
          listIncludes (jsStringOfValue (some (JsValue.str s))).data q.data) <;>
        cases hb4 : listIncludes (lcList n.path.data) (lcList q.data) <;>
        (simp only [hb1, hb2, hb3, hb4]; simp [setAdd_setAdd])
    | null =>
      cases hb1 : (n.key ≠ "" && listIncludes (lcList n.key.data) (lcList q.data)) <;>
        cases hb3 : (n.type == JsonValueType.number &&
          listIncludes (jsStringOfValue (some JsValue.null)).data q.data) <;>
        cases hb4 : listIncludes (lcList n.path.data) (lcList q.data) <;>
        (simp only [hb1, hb3, hb4]; simp [setAdd_setAdd])
    | num r =>
      cases hb1 : (n.key ≠ "" && listIncludes (lcList n.key.data) (lcList q.data)) <;>
        cases hb3 : (n.type == JsonValueType.number &&
          listIncludes (jsStringOfValue (some (JsValue.num r))).data q.data) <;>
        cases hb4 : listIncludes (lcList n.path.data) (lcList q.data) <;>
        (simp only [hb1, hb3, hb4]; simp [setAdd_setAdd])
    | bool b =>
      cases hb1 : (n.key ≠ "" && listIncludes (lcList n.key.data) (lcList q.data)) <;>
        cases hb3 : (n.type == JsonValueType.number &&
          listIncludes (jsStringOfValue (some (JsValue.bool b))).data q.data) <;>
        cases hb4 : listIncludes (lcList n.path.data) (lcList q.data) <;>
        (simp only [hb1, hb3, hb4]; simp [setAdd_setAdd])

theorem foldl_searchStep_congr (ns : List TreeNode) (q : String) :
    ∀ acc : List Nat,
      ns.foldl (searchStep (lcList q.data) q) acc =
        ns.foldl (fun a n => if nodeMatches n q then setAdd a n.id else a) acc := by
  induction ns with
  | nil => intro acc; rfl
  | cons a t ih =>
    intro acc
    simp only [List.foldl_cons, searchStep_adds]
    exact ih _

theorem mem_foldl_condSetAdd (cnd : TreeNode → Bool) (ns : List TreeNode) :
    ∀ (acc : List Nat) (x : Nat),
      x ∈ ns.foldl (fun a n => if cnd n then setAdd a n.id else a) acc ↔
        x ∈ acc ∨ ∃ n ∈ ns, cnd n = true ∧ n.id = x := by
  induction ns with
  | nil => intro acc x; simp
  | cons a t ih =>
    intro acc x
    simp only [List.foldl_cons]
    by_cases hc : cnd a
    · rw [if_pos hc, ih]
      rw [mem_setAdd]
      constructor
      · rintro ((hx | rfl) | ⟨n, hn, h1, h2⟩)
        · exact Or.inl hx
        · exact Or.inr ⟨a, List.mem_cons_self _ _, hc, rfl⟩
        · exact Or.inr ⟨n, List.mem_cons_of_mem _ hn, h1, h2⟩
      · rintro (hx | ⟨n, hn, h1, h2⟩)
        · exact Or.inl (Or.inl hx)
        · rcases List.mem_cons.1 hn with rfl | hn2
          · exact Or.inl (Or.inr h2.symm)
          · exact Or.inr ⟨n, hn2, h1, h2⟩
    · rw [if_neg hc, ih]
      constructor
      · rintro (hx | ⟨n, hn, h1, h2⟩)
        · exact Or.inl hx
        · exact Or.inr ⟨n, List.mem_cons_of_mem _ hn, h1, h2⟩
      · rintro (hx | ⟨n, hn, h1, h2⟩)
        · exact Or.inl hx
        · rcases List.mem_cons.1 hn with rfl | hn2
          · rw [h1] at hc
            cases hc rfl
          · exact Or.inr ⟨n, hn2, h1, h2⟩

theorem mem_searchNodes (ns : List TreeNode) (q : String) (x : Nat) :
    x ∈ searchNodes ns q ↔
      (jsTrim q == "") = false ∧ ∃ n ∈ ns, nodeMatches n q = true ∧ n.id = x := by
  unfold searchNodes
  split
  · rename_i h
    simp [h]
  · rename_i h
    rw [foldl_searchStep_congr, mem_foldl_condSetAdd]
    simp only [List.not_mem_nil, false_or]
    constructor
    · intro hx
      exact ⟨by simpa using h, hx⟩
    · intro hx
      exact hx.2

theorem find?_id_of_nodup (ns : List TreeNode)
    (hnd : nodupB (ns.map fun n => n.id) = true) (m : TreeNode) (hm : m ∈ ns) :
    (ns.find? fun n => n.id == m.id) = some m := by
  induction ns with
  | nil => cases hm
  | cons a t ih =>
    simp only [List.map_cons, nodupB, Bool.and_eq_true, Bool.not_eq_true'] at hnd
    have hna : a.id ∉ t.map fun n => n.id := by
      intro hmem
      rw [show (t.map fun n => n.id).contains a.id = true by simpa using hmem] at hnd
      exact absurd hnd.1 (by simp)
    rcases List.mem_cons.1 hm with rfl | hmem
    · rw [List.find?_cons_of_pos _ (by simp)]
    · have hne : a.id ≠ m.id := by
        intro heq
        exact hna (heq ▸ List.mem_map_of_mem (fun n => n.id) hmem)
      rw [List.find?_cons_of_neg _ (by simpa using hne)]
      exact ih hnd.2 hmem

theorem nodeMapGet_map (ns : List TreeNode) (g : TreeNode → TreeNode)
    (hid : ∀ n, (g n).id = n.id) (pid : Nat) :
    nodeMapGet (ns.map g) pid = (nodeMapGet ns pid).map g := by
  unfold nodeMapGet
  have hf : (ns.map g).filter (fun n => n.id == pid) =
      (ns.filter fun n => n.id == pid).map g := by
    rw [List.filter_map]
    have hfun : ∀ n ∈ ns, ((fun n => n.id == pid) ∘ g) n = (fun n => n.id == pid) n := by
      intro n _
      simp [Function.comp, hid n]
    rw [List.filter_congr hfun]
  rw [hf, List.getLast?_map]

theorem ancChain_mem (ns : List TreeNode) (pp : Option Nat) (a : TreeNode)
    (h : AncChain ns pp a) : a ∈ ns := by
  induction h with
  | head hget => exact nodeMapGet_mem _ _ _ hget
  | tail hget hchain ih => exact ih

theorem ancChain_map_rev (ns : List TreeNode) (g : TreeNode → TreeNode)
    (hid : ∀ n, (g n).id = n.id) (hpar : ∀ n, (g n).parent = n.parent)
    (pp : Option Nat) (a : TreeNode) (h : AncChain (ns.map g) pp a) :
    ∃ b, AncChain ns pp b ∧ a = g b := by
  induction h with
  | head hget =>
    rw [nodeMapGet_map ns g hid] at hget
    cases hb : nodeMapGet ns _ with
    | none =>
      rw [hb] at hget
      simp at hget
    | some b =>
      rw [hb] at hget
      simp only [Option.map_some'] at hget
      exact ⟨b, AncChain.head hb, (Option.some.inj hget).symm⟩
  | tail hget hchain ih =>
    rw [nodeMapGet_map ns g hid] at hget
    rename_i pid p htail
    cases hb : nodeMapGet ns pid with
    | none =>
      rw [hb] at hget
      simp at hget
    | some b0 =>
      rw [hb] at hget
      simp only [Option.map_some'] at hget
      have hpb := Option.some.inj hget
      obtain ⟨b, hcb, rfl⟩ := ih
      rw [← hpb, hpar b0] at hcb
      exact ⟨b, AncChain.tail hb hcb, rfl⟩

theorem chain_dotted (ns : List TreeNode) (c : Nat)
    (hnd : nodupB (ns.map fun n => n.id) = true)
    (hdl : DotLinked c none ns) :
    ∀ (pp : Option Nat) (a : TreeNode), AncChain ns pp a →
      ∀ m ∈ ns, m.parent = pp →
        a.hasChildren = true ∧ ∃ r, m.path = a.path ++ "." ++ r := by
  intro pp a h
  induction h with
  | head hget =>
    intro m hm hmp
    rcases hdl m hm with ⟨_, hnone⟩ | ⟨q, hq, hpar, hqc, hkey, hpath⟩
    · rw [hmp] at hnone
      cases hnone
    · have hpid : nodeMapGet ns q.id = some q := nodeMapGet_of_mem ns hnd q hq
      rw [hmp] at hpar
      have hq2 := Option.some.inj hpar
      rw [← hq2] at hpid
      rw [hpid] at hget
      have hqp := Option.some.inj hget
      rw [← hqp]
      exact ⟨hqc, m.key, hpath⟩
  | tail hget hchain ih =>
    intro m hm hmp
    rcases hdl m hm with ⟨_, hnone⟩ | ⟨q, hq, hpar, hqc, hkey, hpath⟩
    · rw [hmp] at hnone
      cases hnone
    · have hpid : nodeMapGet ns q.id = some q := nodeMapGet_of_mem ns hnd q hq
      rw [hmp] at hpar
      have hq2 := Option.some.inj hpar
      rw [← hq2] at hpid
      rw [hpid] at hget
      have hqp := Option.some.inj hget
      obtain ⟨hac, r, hr⟩ := ih q hq (by rw [hqp])
      refine ⟨hac, r ++ "." ++ m.key, ?_⟩
      rw [hpath, hr]
      apply strData_inj
      simp [String.data_append]

theorem foldl_parentPaths_mono (ns : List TreeNode) (mids : List Nat) :
    ∀ (acc : List String) (y : String), y ∈ acc →
      y ∈ mids.foldl (fun a matchId =>
        match ns.find? fun n => n.id == matchId with
        | some mn => a ++ properPrefixPaths mn.path
        | none => a) acc := by
  induction mids with
  | nil => intro acc y hy; exact hy
  | cons i rest ih =>
    intro acc y hy
    simp only [List.foldl_cons]
    cases hf : ns.find? fun n => n.id == i with
    | none => exact ih _ _ hy
    | some mn => exact ih _ _ (List.mem_append_left _ hy)

theorem foldl_parentPaths_mem (ns : List TreeNode) (mids : List Nat) :
    ∀ (acc : List String) (x : Nat) (m : TreeNode) (y : String),
      x ∈ mids → (ns.find? fun n => n.id == x) = some m →
      y ∈ properPrefixPaths m.path →
      y ∈ mids.foldl (fun a matchId =>
        match ns.find? fun n => n.id == matchId with
        | some mn => a ++ properPrefixPaths mn.path
        | none => a) acc := by
  induction mids with
  | nil =>
    intro _ _ _ _ hx
    cases hx
  | cons i rest ih =>
    intro acc x m y hx hf hy
    simp only [List.foldl_cons]
    rcases List.mem_cons.1 hx with rfl | hx2
    · rw [hf]
      exact foldl_parentPaths_mono ns rest _ y (List.mem_append_right _ hy)
    · cases hf2 : ns.find? fun n => n.id == i with
      | none => exact ih _ x m y hx2 hf hy
      | some mn => exact ih _ x m y hx2 hf hy

theorem mem_ppUnion (ns : List TreeNode) (mids : List Nat) (x : Nat) (m : TreeNode)
    (y : String) (hx : x ∈ mids) (hf : (ns.find? fun n => n.id == x) = some m)
    (hy : y ∈ properPrefixPaths m.path) : y ∈ ppUnion ns mids := by
  unfold ppUnion
  exact foldl_parentPaths_mem ns mids [] x m y hx hf hy

theorem buildNodes_facts (v : Json) :
    (∀ n ∈ buildNodes v, n.path ≠ "") ∧
    (keysNonEmptyB v = true → DotLinked 0 none (buildNodes v)) := by
  obtain ⟨delta, g1, g2, g3, g4, g5, g6⟩ := buildTree_master v [] 0 0 "" none "" none
  have hb : buildNodes v = delta := by
    unfold buildNodes
    rw [g1]
    rfl
  rw [hb]
  exact ⟨g4, g6⟩

theorem expandToMatches_visible_of_linked (ns : List TreeNode) (mids : List Nat)
    (c : Nat)
    (hpe : peB [] (projSkel ns) = true)
    (hnd : nodupB (ns.map fun n => n.id) = true)
    (hpaths : ∀ n ∈ ns, n.path ≠ "")
    (hdl : DotLinked c none ns)
    (m : TreeNode) (hm : m ∈ ns) (hmx : m.id ∈ mids) :
    ∃ n ∈ getVisibleNodes (expandToMatches ns mids), n.id = m.id := by
  have hfind : (ns.find? fun n => n.id == m.id) = some m := find?_id_of_nodup ns hnd m hm
  let g : TreeNode → TreeNode := fun node =>
    if (ppUnion ns mids).contains node.path && node.hasChildren
    then { node with isExpanded := true } else node
  have hexp : expandToMatches ns mids = ns.map g := rfl
  have hgid : ∀ n, (g n).id = n.id ∧ (g n).depth = n.depth ∧ (g n).parent = n.parent :=
    fun n => idp_preserved_condSet n _ _
  have hpe' : peB [] (projSkel (ns.map g)) = true := by
    rw [projSkel_map ns g hgid]
    exact hpe
  have hnd' : nodupB ((ns.map g).map fun n => n.id) = true := by
    rw [idsMap_eq, projSkel_map ns g hgid, ← idsMap_eq]
    exact hnd
  obtain ⟨⟨i, hi⟩, hget⟩ := List.mem_iff_get.1 hm
  have hi' : i < (ns.map g).length := by simpa using hi
  have hget' : (ns.map g).get ⟨i, hi'⟩ = g m := by
    rw [List.get_map, hget]
  have hwalk := walk_iff_chain (ns.map g) hpe' hnd' i hi' (ns.map g).length hi'
  rw [hget'] at hwalk
  have hanc : ∀ a, AncChain (ns.map g) (g m).parent a → a.isExpanded = true := by
    intro a hc
    obtain ⟨b, hcb, rfl⟩ :=
      ancChain_map_rev ns g (fun n => (hgid n).1) (fun n => (hgid n).2.2) _ a hc
    rw [(hgid m).2.2] at hcb
    have hmem_b : b ∈ ns := ancChain_mem ns _ b hcb
    obtain ⟨hbc, r, hr⟩ := chain_dotted ns c hnd hdl m.parent b hcb m hm rfl
    have hbpp : b.path ∈ properPrefixPaths m.path :=
      (mem_properPrefixPaths m.path b.path).2 ⟨hpaths b hmem_b, r, hr⟩
    have hcont : (ppUnion ns mids).contains b.path = true := by
      simpa using mem_ppUnion ns mids m.id m b.path hmx hfind hbpp
    have hcond : ((ppUnion ns mids).contains b.path && b.hasChildren) = true := by
      rw [hcont, hbc]
      rfl
    show (if (ppUnion ns mids).contains b.path && b.hasChildren
      then { b with isExpanded := true } else b).isExpanded = true
    rw [if_pos hcond]
  refine ⟨g m, ?_, (hgid m).1⟩
  rw [hexp]
  apply List.mem_filter.2
  exact ⟨List.mem_map_of_mem g hm, hwalk.2 hanc⟩

/-- C4 is refuted as stated: in the build of `{"a":{"b":{"":{"x":"hit"}}}}`
the query `"hit"` matches exactly the leaf node 4, whose empty-keyed
ancestor has the bracket-form path `root.a.b[0]`; the dot-prefix set of the
match's path `root.a.b[0].x` therefore misses the ancestor `root.a.b`
(node 2), which stays collapsed, and the matched node is absent from the
visible list after `expandToMatches`. -/
theorem c4_sufficiency_counterexample :
    4 ∈ searchNodes (buildNodes emptyKeyDoc) "hit" ∧
    ∀ n ∈ getVisibleNodes (expandToMatches (buildNodes emptyKeyDoc)
        (searchNodes (buildNodes emptyKeyDoc) "hit")), n.id ≠ 4 := by
  decide

/-- C4 (amended): for every document all of whose object keys are non-empty
(so every built path is a dotted extension of the parent's path), every id
matched by `searchNodes` is the id of a node present in `getVisibleNodes`
after `expandToMatches(nodes, searchNodes(nodes, q))`.  The as-written claim
fails on empty object keys, whose children get bracket-form paths the
dot-prefix computation cannot see through (`c4_sufficiency_counterexample`). -/
theorem c4_sufficiency_amended (v : Json) (q : String) (x : Nat)
    (hk : keysNonEmptyB v = true)
    (hx : x ∈ searchNodes (buildNodes v) q) :
    ∃ n ∈ getVisibleNodes
        (expandToMatches (buildNodes v) (searchNodes (buildNodes v) q)),
      n.id = x := by
  have hwf := wfB_of_projSkel (buildNodes v) v (buildNodes_projSkel v)
  rw [wfB, Bool.and_eq_true] at hwf
  obtain ⟨hfacts1, hfacts2⟩ := buildNodes_facts v
  obtain ⟨-, m, hm, -, hmid⟩ := (mem_searchNodes (buildNodes v) q x).1 hx
  have hmx : m.id ∈ searchNodes (buildNodes v) q := by
    rw [hmid]
    exact hx
  have hres := expandToMatches_visible_of_linked (buildNodes v)
    (searchNodes (buildNodes v) q) 0 hwf.1 hwf.2 hfacts1 (hfacts2 hk) m hm hmx
  rw [hmid] at hres
  exact hres

/-- Witness for the amended C4 on `{"a":{"b":{"c":"value"}}}` with query
`"value"`: the single match, leaf 3, is visible after `expandToMatches`. -/
theorem c4_sufficiency_witness :
    keysNonEmptyB abcDoc = true ∧
    3 ∈ searchNodes (buildNodes abcDoc) "value" ∧
    ∃ n ∈ getVisibleNodes (expandToMatches (buildNodes abcDoc)
        (searchNodes (buildNodes abcDoc) "value")), n.id = 3 :=
  ⟨by decide, by decide, c4_sufficiency_amended abcDoc "value" 3 (by decide) (by decide)⟩
